import Mathlib

/-!
Verification of the whalewatch tracking pipeline (src/app.py and
src/beluga_track_server.py) against its natural-language specification.

The per-frame tracking/annotation/logging loop is embedded shallowly:

* The helper `smooth(old, new, alpha=SMOOTHING_ALPHA)` of app.py line 57 /
  beluga_track_server.py line 37 computes
  `int(alpha * new + (1 - alpha) * old)` in Python floats (IEEE binary64);
  `int(...)` is truncation toward zero, embedded as `ratTrunc`.  Two
  embeddings of the helper are used.  `smoothFloat` is the faithful one: it
  reproduces the binary64 arithmetic (each literal, conversion, product and
  sum rounded to 53 significant bits, round to nearest, ties to even, via
  `float64`); the claims about the smoothing arithmetic itself are settled
  against it.  `smooth` is the exact-rational idealization of the same
  formula; it feeds the session embedding below, whose claims (flush
  behavior, discarding, chunk emission, per-track noninterference) are
  insensitive to which arithmetic the smoother uses.  The two differ:
  binary64 gives `smooth(3, 3) = int(2.9999999999999996) = 2`, exact
  arithmetic gives 3.
* `alpha_rect` / `draw_box_with_label` embed the annotator helpers as pure
  functions from their integer inputs to the list of drawing primitives they
  invoke on the frame buffer; the text extent returned by the external
  `cv2.getTextSize` is a parameter.
* `processDetection` embeds the per-detection body of the frame loop
  (app.py lines 139-184, identical in beluga_track_server.py lines 164-191);
  `appGo`/`appRun` embed the streaming generator `generate_tracked_stream`
  (frame loop, periodic CSV write, JPEG encode/yield, and the final CSV
  write in the `finally` block), and `batchGo`/`batchRun` embed the frame
  loop of `beluga_track_server.main` (video writer, periodic CSV write, and
  the final CSV write that is inside the `try` and therefore skipped when an
  exception aborts the loop).  The external detector, video capture, JPEG
  encoder and file system are modelled as inputs: each frame of the input
  script carries the detections the tracker reports and whether the JPEG
  encode succeeds, and a `raise` entry marks the point where an exception
  interrupts the loop.  CSV writes are recorded as the list of full-overwrite
  payloads, transport chunks as the list of emitted frame indices.
-/

namespace WhaleWatch

/-! ## Configuration constants (app.py lines 26-39) -/

def CLASS_NAMES : List String := ["Adult", "Calf"]

def SMOOTHING_ALPHA : ℚ := 0.30

def CSV_EVERY_N_FRAMES : ℕ := 100

def ADULT_GREEN : ℤ × ℤ × ℤ := (147, 205, 108)

def CALF_BLUE : ℤ × ℤ × ℤ := (180, 163, 117)

def PAD_X : ℤ := 8

def PAD_Y : ℤ := 6

def LABEL_ALPHA : ℚ := 0.85

/-- Truncation of a rational toward zero: the semantics of the Python
builtin `int(...)` applied to a numeric value.  For a reduced fraction
`num / den` with `den > 0`, truncating division of `num` by `den`. -/
def ratTrunc (q : ℚ) : ℤ := q.num.tdiv q.den

/-- The smoothing helper (app.py line 57, beluga_track_server.py line 37):
`int(alpha * new + (1 - alpha) * old)`, with the float arithmetic idealized
to exact rationals.  This idealization feeds the session embedding, whose
claims do not depend on the smoothing numerics; the faithful binary64
version is `smoothFloat` below, and the two differ (binary64 maps
`(3, 3)` to 2, exact arithmetic to 3). -/
def smooth (old new : ℤ) (alpha : ℚ := SMOOTHING_ALPHA) : ℤ :=
  ratTrunc (alpha * new + (1 - alpha) * old)

/-- Modelled from the spec (section 4.1): the contract
`smooth_value(previous, incoming, alpha)` computing
`round(alpha*incoming + (1-alpha)*previous)` with round-towards-zero,
where the truncation is spelled out via floor and ceiling. -/
def smooth_value (previous incoming : ℤ) (alpha : ℚ) : ℤ :=
  let v : ℚ := alpha * incoming + (1 - alpha) * previous
  if 0 ≤ v then ⌊v⌋ else ⌈v⌉

/-! ## Basic facts about `ratTrunc` and `smooth` -/

theorem ratTrunc_eq_floor {q : ℚ} (h : 0 ≤ q) : ratTrunc q = ⌊q⌋ := by
  rw [Rat.floor_def, ratTrunc]
  exact Int.tdiv_eq_ediv (Rat.num_nonneg.mpr h) (Int.natCast_nonneg _)

theorem ratTrunc_neg (q : ℚ) : ratTrunc (-q) = -ratTrunc q := by
  simp [ratTrunc, Rat.neg_num, Rat.neg_den, Int.neg_tdiv]

theorem ratTrunc_eq_ceil {q : ℚ} (h : q ≤ 0) : ratTrunc q = ⌈q⌉ := by
  have h2 : 0 ≤ -q := neg_nonneg.mpr h
  have hfloor : ratTrunc (-q) = ⌊-q⌋ := ratTrunc_eq_floor h2
  rw [ratTrunc_neg] at hfloor
  rw [Int.floor_neg] at hfloor
  omega

theorem ratTrunc_intCast (z : ℤ) : ratTrunc (z : ℚ) = z := by
  simp [ratTrunc, Rat.num_intCast, Rat.den_intCast]

/-- Truncation toward zero never moves below an integer lower bound of the
argument. -/
theorem le_ratTrunc_of_le {a : ℤ} {q : ℚ} (h : (a : ℚ) ≤ q) : a ≤ ratTrunc q := by
  rcases le_or_lt 0 q with hq | hq
  · rw [ratTrunc_eq_floor hq]
    exact Int.le_floor.mpr h
  · rw [ratTrunc_eq_ceil hq.le]
    have : (a : ℚ) ≤ (⌈q⌉ : ℚ) := le_trans h (Int.le_ceil q)
    exact_mod_cast this

/-- Truncation toward zero never moves above an integer upper bound of the
argument. -/
theorem ratTrunc_le_of_le {b : ℤ} {q : ℚ} (h : q ≤ (b : ℚ)) : ratTrunc q ≤ b := by
  rcases le_or_lt 0 q with hq | hq
  · rw [ratTrunc_eq_floor hq]
    have : (⌊q⌋ : ℚ) ≤ (b : ℚ) := le_trans (Int.floor_le q) h
    exact_mod_cast this
  · rw [ratTrunc_eq_ceil hq.le]
    exact Int.ceil_le.mpr h

/-- A smoothed coordinate is a fixed point of the smoother when the incoming
value equals the previous value. -/
theorem smooth_self (x : ℤ) : smooth x x = x := by
  have harg : SMOOTHING_ALPHA * (x : ℚ) + (1 - SMOOTHING_ALPHA) * (x : ℚ) = (x : ℚ) := by
    ring
  rw [smooth, harg, ratTrunc_intCast]

/-- The smoothed coordinate lies in the closed interval between the previous
smoothed value and the incoming raw value. -/
theorem smooth_between (p n : ℤ) :
    min p n ≤ smooth p n ∧ smooth p n ≤ max p n := by
  have halpha : SMOOTHING_ALPHA = 3 / 10 := by norm_num [SMOOTHING_ALPHA]
  constructor
  · apply le_ratTrunc_of_le
    rw [halpha]
    rcases le_total p n with h | h
    · rw [min_eq_left h]
      have hc : (p : ℚ) ≤ (n : ℚ) := by exact_mod_cast h
      linarith
    · rw [min_eq_right h]
      have hc : (n : ℚ) ≤ (p : ℚ) := by exact_mod_cast h
      linarith
  · apply ratTrunc_le_of_le
    rw [halpha]
    rcases le_total p n with h | h
    · rw [max_eq_right h]
      have hc : (p : ℚ) ≤ (n : ℚ) := by exact_mod_cast h
      linarith
    · rw [max_eq_left h]
      have hc : (n : ℚ) ≤ (p : ℚ) := by exact_mod_cast h
      linarith

/-! ## Data model -/

/-- An axis-aligned bounding box in integer pixel coordinates, the result of
`map(int, box.xyxy[0])` in the frame loop. -/
structure Box where
  x1 : ℤ
  y1 : ℤ
  x2 : ℤ
  y2 : ℤ
deriving DecidableEq, Repr

/-- One raw detection as delivered by the external detector/tracker: the
optional class tensor `box.cls`, the optional track-id tensor `box.id`, the
bounding box `box.xyxy[0]`, and the optional confidence `box.conf`. -/
structure RawDet where
  cls : Option ℤ
  id : Option ℤ
  xyxy : Box
  conf : Option ℚ
deriving DecidableEq, Repr

/-- One row appended to `tracking_rows` (app.py lines 171-184):
`[frame_idx, t_sec, track_id, whale_class, x1, y1, x2, y2, beh_name, conf_val]`. -/
structure Row where
  frame : ℕ
  t_sec : ℚ
  track_id : ℤ
  whale_class : String
  x1 : ℤ
  y1 : ℤ
  x2 : ℤ
  y2 : ℤ
  behavior : String
  conf : ℚ
deriving DecidableEq, Repr

/-- One invocation of `draw_box_with_label(frame, box, label_text, box_color)`
recorded by the frame loop. -/
structure DrawCall where
  box : Box
  label : String
  color : ℤ × ℤ × ℤ
deriving DecidableEq, Repr

/-- The per-session mutable state threaded through the frame loop: the
`smoothing_buffer` dict (track id to last smoothed box, insertion replaces)
and the accumulated `tracking_rows`. -/
structure StepState where
  buffer : List (ℤ × Box)
  rows : List Row
deriving DecidableEq, Repr

/-- Dict lookup `smoothing_buffer[track_id]` (present iff
`track_id in smoothing_buffer`). -/
def lookupTrack : List (ℤ × Box) → ℤ → Option Box
  | [], _ => none
  | e :: rest, t => if e.1 = t then some e.2 else lookupTrack rest t

/-- Dict update `smoothing_buffer[track_id] = [x1, y1, x2, y2]`: replaces the
binding if present, otherwise adds it. -/
def insertTrack : List (ℤ × Box) → ℤ → Box → List (ℤ × Box)
  | [], t, b => [(t, b)]
  | e :: rest, t, b => if e.1 = t then (t, b) :: rest else e :: insertTrack rest t b

theorem lookupTrack_insert_self (buf : List (ℤ × Box)) (t : ℤ) (b : Box) :
    lookupTrack (insertTrack buf t b) t = some b := by
  induction buf with
  | nil => simp [insertTrack, lookupTrack]
  | cons e rest ih =>
    by_cases h : e.1 = t
    · simp [insertTrack, lookupTrack, h]
    · simp [insertTrack, lookupTrack, h, ih]

theorem lookupTrack_insert_other (buf : List (ℤ × Box)) {t t' : ℤ} (b : Box)
    (h : t' ≠ t) : lookupTrack (insertTrack buf t b) t' = lookupTrack buf t' := by
  have h2 : ¬t = t' := fun hh => h hh.symm
  induction buf with
  | nil => simp [insertTrack, lookupTrack, h2]
  | cons e rest ih =>
    by_cases he : e.1 = t
    · simp [insertTrack, lookupTrack, he, h2]
    · by_cases he' : e.1 = t'
      · simp [insertTrack, lookupTrack, he, he', h]
      · simp [insertTrack, lookupTrack, he, he', h, ih]

/-! ## Class name, behavior and color (app.py lines 103-104 and 156-165) -/

/-- The helper `safe_class_name`: `CLASS_NAMES[class_id]` when
`0 <= class_id < len(CLASS_NAMES)`, else `str(class_id)`. -/
def safe_class_name (class_id : ℤ) : String :=
  if 0 ≤ class_id ∧ class_id < (CLASS_NAMES.length : ℤ) then
    CLASS_NAMES.getD class_id.toNat ""
  else toString class_id

/-- The color selection on app.py line 165:
`CALF_BLUE if whale_class == "Calf" else ADULT_GREEN`. -/
def box_color_for (whale_class : String) : ℤ × ℤ × ℤ :=
  if whale_class = "Calf" then CALF_BLUE else ADULT_GREEN

/-- Smoothing the four coordinates of a box against the previous smoothed
box (app.py lines 149-153). -/
def smoothBox (p r : Box) : Box :=
  { x1 := smooth p.x1 r.x1
    y1 := smooth p.y1 r.y1
    x2 := smooth p.x2 r.x2
    y2 := smooth p.y2 r.y2 }

/-- One smoothing-state transition for a track: the raw box verbatim on first
sighting, otherwise the coordinatewise smoothing against the previous
smoothed box (app.py lines 148-153). -/
def smoothStep (prev : Option Box) (raw : Box) : Box :=
  match prev with
  | some p => smoothBox p raw
  | none => raw

/-- The successive smoothed boxes stored for one track id, starting from a
given buffer entry, as the raw boxes for that track arrive. -/
def smoothTrajFrom : Option Box → List Box → List Box
  | _, [] => []
  | prev, r :: rs =>
    let s := smoothStep prev r
    s :: smoothTrajFrom (some s) rs

/-- The successive smoothed boxes for one track id over its whole raw
sequence (the buffer holds no entry before the first sighting). -/
def smoothTraj (raws : List Box) : List Box := smoothTrajFrom none raws

/-! ## The per-detection body of the frame loop (app.py lines 139-184) -/

/-- The log row appended for one id-bearing detection (app.py lines 156-184):
`[frame_idx, t_sec, track_id, whale_class, x1, y1, x2, y2, beh_name,
conf_val]`, with `t_sec = frame_idx / fps`, the behavior label the static
lookup `"surfacing" if whale_class == "Adult" else "nursing"`, and the
smoothed coordinates `sm`. -/
def rowOf (fps : ℚ) (frame_idx : ℕ) (track_id : ℤ) (det : RawDet) (sm : Box) : Row :=
  let whale_class := safe_class_name (det.cls.getD 0)
  { frame := frame_idx
    t_sec := (frame_idx : ℚ) / fps
    track_id := track_id
    whale_class := whale_class
    x1 := sm.x1
    y1 := sm.y1
    x2 := sm.x2
    y2 := sm.y2
    behavior := if whale_class = "Adult" then "surfacing" else "nursing"
    conf := det.conf.getD 0 }

/-- The body of `for box in r.boxes` in `generate_tracked_stream`
(identical in `beluga_track_server.main`): extract class id and track id,
discard the detection when the track id is absent (encoded `-1`), smooth the
box through the per-track buffer, derive display label, behavior label and
color, draw, and append a log row.  Returns the updated session state and
the annotator calls made. -/
def processDetection (fps : ℚ) (frame_idx : ℕ) (st : StepState) (det : RawDet) :
    StepState × List DrawCall :=
  let class_id := det.cls.getD 0
  let track_id := det.id.getD (-1)
  if track_id = -1 then (st, [])
  else
    let sm := smoothStep (lookupTrack st.buffer track_id) det.xyxy
    let whale_class := safe_class_name class_id
    let label_text := whale_class ++ " ID:" ++ toString track_id
    (⟨insertTrack st.buffer track_id sm, st.rows ++ [rowOf fps frame_idx track_id det sm]⟩,
      [⟨sm, label_text, box_color_for whale_class⟩])

/-- Processing the flattened list of detections reported for one frame. -/
def processDets (fps : ℚ) (frame_idx : ℕ) : StepState → List RawDet → StepState × List DrawCall
  | st, [] => (st, [])
  | st, d :: ds =>
    let r1 := processDetection fps frame_idx st d
    let r2 := processDets fps frame_idx r1.1 ds
    (r2.1, r1.2 ++ r2.2)

/-! ## The annotator (app.py lines 61-100) -/

/-- The pixel-buffer primitives the annotator invokes: an unfilled rectangle
(`cv2.rectangle` with a stroke width), a translucent filled rectangle (the
`overlay`/`cv2.addWeighted` blend in `alpha_rect`), and rendered text
(`cv2.putText`). -/
inductive DrawOp where
  | rect (p1 p2 : ℤ × ℤ) (color : ℤ × ℤ × ℤ) (thickness : ℤ)
  | blend (p1 p2 : ℤ × ℤ) (color : ℤ × ℤ × ℤ) (alpha : ℚ)
  | text (s : String) (org : ℤ × ℤ)
deriving DecidableEq, Repr

/-- The helper `alpha_rect(img, p1, p2, color, alpha)`: clip the rectangle to the frame
bounds (`img.shape[1]` is the width `w`, `img.shape[0]` the height `h`),
return without drawing when the clipped rectangle has zero or negative
extent, otherwise blend the solid rectangle into the frame. -/
def alpha_rect (w h : ℤ) (p1 p2 : ℤ × ℤ) (color : ℤ × ℤ × ℤ)
    (alpha : ℚ := LABEL_ALPHA) : List DrawOp :=
  let x1 := max 0 p1.1
  let y1 := max 0 p1.2
  let x2 := min (w - 1) p2.1
  let y2 := min (h - 1) p2.2
  if x2 ≤ x1 ∨ y2 ≤ y1 then []
  else [DrawOp.blend (x1, y1) (x2, y2) color alpha]

/-- The helper `draw_box_with_label(img, box, label_text, box_color)`: the box outline,
then the translucent label background via `alpha_rect`, then the label text
via `cv2.putText` (unconditionally).  `tw`/`th` are the text extent returned
by the external `cv2.getTextSize`. -/
def draw_box_with_label (w h : ℤ) (box : Box) (label_text : String)
    (tw th : ℤ) (box_color : ℤ × ℤ × ℤ) : List DrawOp :=
  let top := max 0 (box.y1 - th - 2 * PAD_Y)
  let left := box.x1
  let right := min (w - 1) (box.x1 + tw + 2 * PAD_X)
  let bottom := box.y1
  [DrawOp.rect (box.x1, box.y1) (box.x2, box.y2) box_color 2]
    ++ alpha_rect w h (left, top) (right, bottom) box_color LABEL_ALPHA
    ++ [DrawOp.text label_text (left + PAD_X, bottom - PAD_Y)]

/-! ## The two session runners (app.py lines 108-235, beluga_track_server.py
lines 145-228) -/

/-- One unit of external input to the frame loop: either the next decoded
frame together with the detections the tracker reports on it and whether the
JPEG transport encode of the annotated frame succeeds, or the point at which
an exception interrupts the `Running` loop. -/
inductive FrameIn where
  | frame (dets : List RawDet) (encodeOk : Bool)
  | raise
deriving DecidableEq, Repr

/-- The observable outcome of one streaming session
(`generate_tracked_stream`): final session state, number of frames read,
the successive full-overwrite CSV payloads in write order, the frame indices
emitted as MJPEG transport chunks, the annotator calls, and whether the
session ended by exception. -/
structure AppResult where
  state : StepState
  frames : ℕ
  csvWrites : List (List Row)
  chunks : List ℕ
  draws : List DrawCall
  errored : Bool
deriving DecidableEq, Repr

/-- The frame loop of `generate_tracked_stream`: per frame, increment
`frame_idx`, process the detections, write the CSV every
`CSV_EVERY_N_FRAMES` frames when rows exist, then emit the frame as a
transport chunk unless the JPEG encode failed.  On normal end of stream and
on an exception alike, the `finally` block performs the final CSV write when
rows exist (app.py lines 216-235). -/
def appGo (fps : ℚ) : StepState → ℕ → List (List Row) → List ℕ → List DrawCall →
    List FrameIn → AppResult
  | st, fi, csv, chs, ds, [] =>
    ⟨st, fi, if st.rows = [] then csv else csv ++ [st.rows], chs, ds, false⟩
  | st, fi, csv, chs, ds, FrameIn.raise :: _ =>
    ⟨st, fi, if st.rows = [] then csv else csv ++ [st.rows], chs, ds, true⟩
  | st, fi, csv, chs, ds, FrameIn.frame dets ok :: rest =>
    let fi2 := fi + 1
    let r := processDets fps fi2 st dets
    let csv2 := if fi2 % CSV_EVERY_N_FRAMES = 0 ∧ r.1.rows ≠ [] then csv ++ [r.1.rows] else csv
    let chs2 := if ok then chs ++ [fi2] else chs
    appGo fps r.1 fi2 csv2 chs2 (ds ++ r.2) rest

/-- One full streaming session from the initial state. -/
def appRun (fps : ℚ) (inputs : List FrameIn) : AppResult :=
  appGo fps ⟨[], []⟩ 0 [] [] [] inputs

/-- The observable outcome of one batch session (`beluga_track_server.main`):
like `AppResult`, but with the frame indices written to the output video
writer in place of transport chunks. -/
structure BatchResult where
  state : StepState
  frames : ℕ
  csvWrites : List (List Row)
  writerFrames : List ℕ
  draws : List DrawCall
  errored : Bool
deriving DecidableEq, Repr

/-- The frame loop of `beluga_track_server.main`: per frame, process the
detections, write the annotated frame to the video writer, then write the
CSV every `CSV_EVERY_N_FRAMES` frames when rows exist.  The final CSV write
sits inside the `try` block after the loop, so it runs only on normal
completion; the `except` handler releases resources and exits without it
(beluga_track_server.py lines 149-228). -/
def batchGo (fps : ℚ) : StepState → ℕ → List (List Row) → List ℕ → List DrawCall →
    List FrameIn → BatchResult
  | st, fi, csv, wr, ds, [] =>
    ⟨st, fi, if st.rows = [] then csv else csv ++ [st.rows], wr, ds, false⟩
  | st, fi, csv, wr, ds, FrameIn.raise :: _ =>
    ⟨st, fi, csv, wr, ds, true⟩
  | st, fi, csv, wr, ds, FrameIn.frame dets _ :: rest =>
    let fi2 := fi + 1
    let r := processDets fps fi2 st dets
    let wr2 := wr ++ [fi2]
    let csv2 := if fi2 % CSV_EVERY_N_FRAMES = 0 ∧ r.1.rows ≠ [] then csv ++ [r.1.rows] else csv
    batchGo fps r.1 fi2 csv2 wr2 (ds ++ r.2) rest

/-- One full batch session from the initial state. -/
def batchRun (fps : ℚ) (inputs : List FrameIn) : BatchResult :=
  batchGo fps ⟨[], []⟩ 0 [] [] [] inputs

/-! ## Smoothing trajectory lemmas -/

theorem smoothBox_self (b : Box) : smoothBox b b = b := by
  cases b
  simp [smoothBox, smooth_self]

theorem smoothTrajFrom_const (b : Box) :
    ∀ n : ℕ, smoothTrajFrom (some b) (List.replicate n b) = List.replicate n b := by
  intro n
  induction n with
  | zero => simp [smoothTrajFrom]
  | succ k ih =>
    simp [List.replicate_succ, smoothTrajFrom, smoothStep, smoothBox_self, ih]

theorem smoothTraj_head (raws : List Box) : (smoothTraj raws).head? = raws.head? := by
  cases raws <;> simp [smoothTraj, smoothTrajFrom, smoothStep]

theorem smoothTrajFrom_get_succ :
    ∀ (raws : List Box) (prev : Option Box) (i : ℕ) (s r : Box),
      (smoothTrajFrom prev raws).get? i = some s →
      raws.get? (i + 1) = some r →
      (smoothTrajFrom prev raws).get? (i + 1) = some (smoothBox s r) := by
  intro raws
  induction raws with
  | nil =>
    intro prev i s r h1 _
    simp [smoothTrajFrom] at h1
  | cons x xs ih =>
    intro prev i s r h1 h2
    cases i with
    | zero =>
      simp only [smoothTrajFrom, List.get?_cons_zero, Option.some.injEq] at h1
      cases xs with
      | nil => simp at h2
      | cons y ys =>
        simp only [List.get?_cons_succ, List.get?_cons_zero, Option.some.injEq] at h2
        subst h1
        subst h2
        simp [smoothTrajFrom, smoothStep]
    | succ j =>
      simp only [smoothTrajFrom, List.get?_cons_succ] at h1 h2 ⊢
      exact ih (some (smoothStep prev x)) j s r h1 h2

/-- The componentwise closed-interval relation: each coordinate of the third
box lies between the corresponding coordinates of the first two (inclusive). -/
def BoxBetween (s r s2 : Box) : Prop :=
  (min s.x1 r.x1 ≤ s2.x1 ∧ s2.x1 ≤ max s.x1 r.x1) ∧
  (min s.y1 r.y1 ≤ s2.y1 ∧ s2.y1 ≤ max s.y1 r.y1) ∧
  (min s.x2 r.x2 ≤ s2.x2 ∧ s2.x2 ≤ max s.x2 r.x2) ∧
  (min s.y2 r.y2 ≤ s2.y2 ∧ s2.y2 ≤ max s.y2 r.y2)

theorem boxBetween_smoothBox (s r : Box) : BoxBetween s r (smoothBox s r) :=
  ⟨⟨(smooth_between _ _).1, (smooth_between _ _).2⟩,
   ⟨(smooth_between _ _).1, (smooth_between _ _).2⟩,
   ⟨(smooth_between _ _).1, (smooth_between _ _).2⟩,
   ⟨(smooth_between _ _).1, (smooth_between _ _).2⟩⟩

theorem ratTrunc_char (q : ℚ) : ratTrunc q = if 0 ≤ q then ⌊q⌋ else ⌈q⌉ := by
  rcases le_or_lt 0 q with h | h
  · rw [if_pos h, ratTrunc_eq_floor h]
  · rw [if_neg (not_le.mpr h), ratTrunc_eq_ceil h.le]

/-! ## Claim C7 -/

/-- Claim C7: a detection lacking a track id is discarded: processing it
yields zero log rows, zero annotator calls, and leaves the smoothing state
(and the whole session state) unchanged, for every frame context and every
class/box/confidence combination. -/
theorem claim7_no_track_id_discarded (fps : ℚ) (frame_idx : ℕ) (st : StepState)
    (det : RawDet) (h : det.id = none) :
    processDetection fps frame_idx st det = (st, []) := by
  have h2 : det.id.getD (-1) = -1 := by rw [h]; rfl
  simp [processDetection, h2]

/-- A concrete instance of claim C7: an id-less detection on frame 1 of a
fresh session is a no-op. -/
theorem claim7_witness :
    processDetection 30 1 ⟨[], []⟩ ⟨some 0, none, Box.mk 0 0 10 10, some 1⟩
      = (⟨[], []⟩, []) :=
  claim7_no_track_id_discarded 30 1 ⟨[], []⟩ ⟨some 0, none, Box.mk 0 0 10 10, some 1⟩ rfl

/-! ## Decimal representations never collide with the class name Calf -/

theorem toDigitsCore_ne_C :
    ∀ (fuel n : ℕ) (ds : List Char), (∀ c ∈ ds, c ≠ 'C') →
      ∀ c ∈ Nat.toDigitsCore 10 fuel n ds, c ≠ 'C' := by
  intro fuel
  induction fuel with
  | zero => intro n ds hds c hc; exact hds c hc
  | succ f ih =>
    intro n ds hds c hc
    have hd : Nat.digitChar (n % 10) ≠ 'C' := by
      have h10 : ∀ m : ℕ, m < 10 → Nat.digitChar m ≠ 'C' := by decide
      exact h10 (n % 10) (Nat.mod_lt n (by norm_num))
    simp only [Nat.toDigitsCore] at hc
    by_cases h : n / 10 = 0
    · rw [if_pos h] at hc
      rcases List.mem_cons.mp hc with h1 | h1
      · rw [h1]; exact hd
      · exact hds c h1
    · rw [if_neg h] at hc
      refine ih (n / 10) _ ?_ c hc
      intro c2 hc2
      rcases List.mem_cons.mp hc2 with h1 | h1
      · rw [h1]; exact hd
      · exact hds c2 h1

theorem nat_repr_ne_Calf (n : ℕ) : Nat.repr n ≠ "Calf" := by
  intro h
  have hdata : Nat.toDigits 10 n = ['C', 'a', 'l', 'f'] := congrArg String.data h
  have hmem : ('C' : Char) ∈ Nat.toDigits 10 n := by rw [hdata]; simp
  exact toDigitsCore_ne_C (n + 1) n [] (by simp) 'C' hmem rfl

/-- The decimal string of an integer is never the class name Calf (it
consists of decimal digits, possibly after a leading minus sign). -/
theorem toString_int_ne_Calf (z : ℤ) : toString z ≠ "Calf" := by
  cases z with
  | ofNat n => exact nat_repr_ne_Calf n
  | negSucc m =>
    intro h
    have h2 : ('-' :: (Nat.repr (m + 1)).data) = ['C', 'a', 'l', 'f'] := by
      have h3 := congrArg String.data h
      rwa [show toString (Int.negSucc m) = "-" ++ Nat.repr (m + 1) from rfl,
        String.data_append] at h3
    injection h2 with h4
    exact absurd h4 (by decide)

/-! ## Claim C3 -/

/-- Counterexample to claim C3: the out-of-range class id 2 renders with the
display label "2", yet its box is assigned the named color ADULT_GREEN — the
color branch on app.py line 165 falls back to ADULT_GREEN for every class
that is not Calf, rather than leaving unknown classes without a named
color. -/
theorem claim3_counterexample :
    safe_class_name 2 = "2" ∧
    box_color_for (safe_class_name 2) = ADULT_GREEN ∧
    ADULT_GREEN ≠ CALF_BLUE := by
  refine ⟨by decide, by decide, by decide⟩

/-- Claim C3 as amended: for every class id outside the known two-class set,
the detection still renders using the integer value of the class id as its
display label, and its box is assigned ADULT_GREEN, the else-branch of the
two-way color test (not CALF_BLUE, and not a separate unknown-class
color). -/
theorem claim3_amended (class_id : ℤ)
    (h : ¬(0 ≤ class_id ∧ class_id < (CLASS_NAMES.length : ℤ))) :
    safe_class_name class_id = toString class_id ∧
    box_color_for (safe_class_name class_id) = ADULT_GREEN := by
  have h1 : safe_class_name class_id = toString class_id := by
    rw [safe_class_name, if_neg h]
  refine ⟨h1, ?_⟩
  rw [h1, box_color_for, if_neg (toString_int_ne_Calf class_id)]

/-- A concrete instance of the amended claim C3 at class id 5. -/
theorem claim3_witness :
    safe_class_name 5 = toString (5 : ℤ) ∧
    box_color_for (safe_class_name 5) = ADULT_GREEN :=
  claim3_amended 5 (by decide)

/-! ## Claim C4 -/

/-- Counterexample to claim C4: for a 100x100 frame and a box whose top edge
sits on the frame border (y1 = 0), the clipped label background rectangle is
degenerate, so `alpha_rect` draws nothing — yet `draw_box_with_label` still
renders the label text, because `cv2.putText` is invoked unconditionally
after `alpha_rect` returns (app.py lines 89-100).  The claim that both the
label background and the label text are skipped is false. -/
theorem claim4_counterexample :
    alpha_rect 100 100 (10, 0) (76, 0) ADULT_GREEN LABEL_ALPHA = [] ∧
    draw_box_with_label 100 100 (Box.mk 10 0 50 40) "Adult ID:1" 50 10 ADULT_GREEN =
      [DrawOp.rect (10, 0) (50, 40) ADULT_GREEN 2,
       DrawOp.text "Adult ID:1" (18, -6)] := by
  refine ⟨by decide, by decide⟩

/-- Claim C4 as amended: the label background rectangle is clipped to the
frame bounds, and if clipping collapses it to zero or negative area the
label background blend is skipped — but the label text is still drawn: the
output consists of exactly the box outline and the label text. -/
theorem claim4_amended (w h : ℤ) (box : Box) (label_text : String) (tw th : ℤ)
    (c : ℤ × ℤ × ℤ)
    (hdeg : min (w - 1) (min (w - 1) (box.x1 + tw + 2 * PAD_X)) ≤ max 0 box.x1 ∨
      min (h - 1) box.y1 ≤ max 0 (max 0 (box.y1 - th - 2 * PAD_Y))) :
    draw_box_with_label w h box label_text tw th c =
      [DrawOp.rect (box.x1, box.y1) (box.x2, box.y2) c 2,
       DrawOp.text label_text (box.x1 + PAD_X, box.y1 - PAD_Y)] := by
  simp only [draw_box_with_label, alpha_rect]
  rw [if_pos hdeg]
  simp

/-- A concrete instance of the amended claim C4: the counterexample
configuration produces exactly the box outline and the label text. -/
theorem claim4_witness :
    draw_box_with_label 100 100 (Box.mk 10 0 50 40) "Adult ID:1" 50 10 ADULT_GREEN =
      [DrawOp.rect (10, 0) (50, 40) ADULT_GREEN 2,
       DrawOp.text "Adult ID:1" (18, -6)] :=
  claim4_amended 100 100 (Box.mk 10 0 50 40) "Adult ID:1" 50 10 ADULT_GREEN
    (by decide)

/-! ## Concrete detections used in witnesses and counterexamples -/

/-- An id-bearing Adult detection with track id 1. -/
def wdet : RawDet := ⟨some 0, some 1, Box.mk 0 0 10 10, some 1⟩

/-- An id-bearing Calf detection with track id 2. -/
def wodet : RawDet := ⟨some 1, some 2, Box.mk 5 5 15 15, some 1⟩

/-- A detection without a track id. -/
def wnodet : RawDet := ⟨some 0, none, Box.mk 0 0 10 10, some 1⟩

/-! ## Flush behavior of the two runners -/

/-- The streaming session always ends with a CSV write of all accumulated
rows whenever any row has accumulated, no matter how the input script ends
(normal end of stream or exception): the write sits in the `finally`
block. -/
theorem appGo_final_flush (fps : ℚ) :
    ∀ (ins : List FrameIn) (st : StepState) (fi : ℕ) (csv : List (List Row))
      (chs : List ℕ) (ds : List DrawCall),
      (appGo fps st fi csv chs ds ins).state.rows ≠ [] →
      (appGo fps st fi csv chs ds ins).csvWrites.getLast?
        = some (appGo fps st fi csv chs ds ins).state.rows := by
  intro ins
  induction ins with
  | nil =>
    intro st fi csv chs ds h
    simp only [appGo] at h ⊢
    rw [if_neg h]
    exact List.getLast?_concat csv
  | cons f rest ih =>
    cases f with
    | raise =>
      intro st fi csv chs ds h
      simp only [appGo] at h ⊢
      rw [if_neg h]
      exact List.getLast?_concat csv
    | frame dets ok =>
      intro st fi csv chs ds h
      simp only [appGo] at h ⊢
      exact ih _ _ _ _ _ h

/-- The batch session ends with a CSV write of all accumulated rows only on
normal completion (no exception in the input script): the final write is
inside the `try` block. -/
theorem batchGo_final_flush (fps : ℚ) :
    ∀ (ins : List FrameIn), (∀ f ∈ ins, f ≠ FrameIn.raise) →
      ∀ (st : StepState) (fi : ℕ) (csv : List (List Row)) (wr : List ℕ)
        (ds : List DrawCall),
      (batchGo fps st fi csv wr ds ins).state.rows ≠ [] →
      (batchGo fps st fi csv wr ds ins).csvWrites.getLast?
        = some (batchGo fps st fi csv wr ds ins).state.rows := by
  intro ins
  induction ins with
  | nil =>
    intro _ st fi csv wr ds h
    simp only [batchGo] at h ⊢
    rw [if_neg h]
    exact List.getLast?_concat csv
  | cons f rest ih =>
    intro hnr st fi csv wr ds h
    cases f with
    | raise => exact absurd rfl (hnr FrameIn.raise (by simp))
    | frame dets ok =>
      simp only [batchGo] at h ⊢
      exact ih (fun f hf => hnr f (List.mem_cons_of_mem _ hf)) _ _ _ _ _ h

/-! ## Claim C1 -/

/-- Counterexample to claim C1: in the batch entry point
(`beluga_track_server.main`), a session that accumulates one log row on
frame 1 and is then interrupted by an exception ends in the error state with
no CSV write at all — the final flush is inside the `try` block and is
skipped, so no final complete overwrite of the log destination happens
before the error surfaces.  The streaming session on the same inputs does
write the CSV on the way out. -/
theorem claim1_counterexample :
    (batchRun 30 [FrameIn.frame [wdet] true, FrameIn.raise]).state.rows ≠ [] ∧
    (batchRun 30 [FrameIn.frame [wdet] true, FrameIn.raise]).errored = true ∧
    (batchRun 30 [FrameIn.frame [wdet] true, FrameIn.raise]).csvWrites = [] ∧
    (appRun 30 [FrameIn.frame [wdet] true, FrameIn.raise]).csvWrites ≠ [] := by
  refine ⟨by decide, rfl, rfl, by decide⟩

/-- Claim C1 as amended: in the streaming session (`generate_tracked_stream`),
whenever at least one log row has accumulated, the session ends — for any
reason, including an exception in `Running` — with a final complete
overwrite of the log destination carrying all accumulated rows, performed in
the `finally` block before the error propagates; the batch entry point
(`beluga_track_server.main`) performs the final overwrite only on normal
completion, an exception skipping it. -/
theorem claim1_final_flush (fps : ℚ) (inputs : List FrameIn) :
    ((appRun fps inputs).state.rows ≠ [] →
      (appRun fps inputs).csvWrites.getLast? = some (appRun fps inputs).state.rows) ∧
    ((∀ f ∈ inputs, f ≠ FrameIn.raise) → (batchRun fps inputs).state.rows ≠ [] →
      (batchRun fps inputs).csvWrites.getLast? = some (batchRun fps inputs).state.rows) :=
  ⟨fun h => appGo_final_flush fps inputs ⟨[], []⟩ 0 [] [] [] h,
   fun hnr h => batchGo_final_flush fps inputs hnr ⟨[], []⟩ 0 [] [] [] h⟩

/-- A concrete instance of the amended claim C1: a one-frame session with one
id-bearing detection ends with a final CSV write of its accumulated rows,
both in streaming mode (exception at frame 2) and in batch mode (normal
completion). -/
theorem claim1_witness :
    (appRun 30 [FrameIn.frame [wdet] true, FrameIn.raise]).csvWrites.getLast?
        = some (appRun 30 [FrameIn.frame [wdet] true, FrameIn.raise]).state.rows ∧
    (batchRun 30 [FrameIn.frame [wdet] true]).csvWrites.getLast?
        = some (batchRun 30 [FrameIn.frame [wdet] true]).state.rows :=
  ⟨(claim1_final_flush 30 [FrameIn.frame [wdet] true, FrameIn.raise]).1 (by decide),
   (claim1_final_flush 30 [FrameIn.frame [wdet] true]).2 (by decide) (by decide)⟩

/-! ## Claim C10 -/

/-- The detections carried by one input element. -/
def frameDets : FrameIn → List RawDet
  | FrameIn.frame dets _ => dets
  | FrameIn.raise => []

/-- Processing a detection whose extracted track id is the absent marker
`-1` is a no-op. -/
theorem processDetection_skip {det : RawDet} (h : det.id.getD (-1) = -1)
    (fps : ℚ) (fi : ℕ) (st : StepState) :
    processDetection fps fi st det = (st, []) := by
  simp [processDetection, h]

theorem processDets_noId (fps : ℚ) (fi : ℕ) :
    ∀ (dets : List RawDet) (st : StepState),
      (∀ d ∈ dets, d.id.getD (-1) = -1) →
      processDets fps fi st dets = (st, []) := by
  intro dets
  induction dets with
  | nil => intro st _; rfl
  | cons d ds ih =>
    intro st hall
    have h1 := processDetection_skip (hall d (by simp)) fps fi st
    simp [processDets, h1, ih st (fun d2 hd2 => hall d2 (List.mem_cons_of_mem _ hd2))]

/-- Every CSV payload the streaming session writes is nonempty, and a
session whose detections all lack track ids never writes the CSV. -/
theorem appGo_csv_writes (fps : ℚ) :
    ∀ (ins : List FrameIn) (st : StepState) (fi : ℕ) (csv : List (List Row))
      (chs : List ℕ) (ds : List DrawCall),
      ((∀ w ∈ csv, w ≠ ([] : List Row)) →
        ∀ w ∈ (appGo fps st fi csv chs ds ins).csvWrites, w ≠ []) ∧
      ((∀ f ∈ ins, ∀ d ∈ frameDets f, d.id.getD (-1) = -1) → st.rows = [] →
        (appGo fps st fi csv chs ds ins).csvWrites = csv) := by
  intro ins
  induction ins with
  | nil =>
    intro st fi csv chs ds
    constructor
    · intro hcsv w hw
      simp only [appGo] at hw
      by_cases hr : st.rows = []
      · rw [if_pos hr] at hw; exact hcsv w hw
      · rw [if_neg hr] at hw
        rcases List.mem_append.mp hw with h1 | h1
        · exact hcsv w h1
        · rw [List.mem_singleton.mp h1]; exact hr
    · intro _ hrows
      simp only [appGo]
      rw [if_pos hrows]
  | cons f rest ih =>
    intro st fi csv chs ds
    cases f with
    | raise =>
      constructor
      · intro hcsv w hw
        simp only [appGo] at hw
        by_cases hr : st.rows = []
        · rw [if_pos hr] at hw; exact hcsv w hw
        · rw [if_neg hr] at hw
          rcases List.mem_append.mp hw with h1 | h1
          · exact hcsv w h1
          · rw [List.mem_singleton.mp h1]; exact hr
      · intro _ hrows
        simp only [appGo]
        rw [if_pos hrows]
    | frame dets ok =>
      constructor
      · intro hcsv w hw
        simp only [appGo] at hw
        refine (ih _ _ _ _ _).1 ?_ w hw
        intro w2 hw2
        by_cases hc : (fi + 1) % CSV_EVERY_N_FRAMES = 0 ∧
            (processDets fps (fi + 1) st dets).1.rows ≠ []
        · rw [if_pos hc] at hw2
          rcases List.mem_append.mp hw2 with h1 | h1
          · exact hcsv w2 h1
          · rw [List.mem_singleton.mp h1]; exact hc.2
        · rw [if_neg hc] at hw2
          exact hcsv w2 hw2
      · intro hall hrows
        have hdets : processDets fps (fi + 1) st dets = (st, []) :=
          processDets_noId fps (fi + 1) dets st (hall (FrameIn.frame dets ok) (by simp))
        simp only [appGo, hdets, hrows]
        rw [if_neg (by simp :
          ¬((fi + 1) % CSV_EVERY_N_FRAMES = 0 ∧ ([] : List Row) ≠ []))]
        exact (ih _ _ _ _ _).2
          (fun f2 hf2 => hall f2 (List.mem_cons_of_mem _ hf2)) hrows

/-- Every CSV payload the batch session writes is nonempty, and a session
whose detections all lack track ids never writes the CSV. -/
theorem batchGo_csv_writes (fps : ℚ) :
    ∀ (ins : List FrameIn) (st : StepState) (fi : ℕ) (csv : List (List Row))
      (wr : List ℕ) (ds : List DrawCall),
      ((∀ w ∈ csv, w ≠ ([] : List Row)) →
        ∀ w ∈ (batchGo fps st fi csv wr ds ins).csvWrites, w ≠ []) ∧
      ((∀ f ∈ ins, ∀ d ∈ frameDets f, d.id.getD (-1) = -1) → st.rows = [] →
        (batchGo fps st fi csv wr ds ins).csvWrites = csv) := by
  intro ins
  induction ins with
  | nil =>
    intro st fi csv wr ds
    constructor
    · intro hcsv w hw
      simp only [batchGo] at hw
      by_cases hr : st.rows = []
      · rw [if_pos hr] at hw; exact hcsv w hw
      · rw [if_neg hr] at hw
        rcases List.mem_append.mp hw with h1 | h1
        · exact hcsv w h1
        · rw [List.mem_singleton.mp h1]; exact hr
    · intro _ hrows
      simp only [batchGo]
      rw [if_pos hrows]
  | cons f rest ih =>
    intro st fi csv wr ds
    cases f with
    | raise =>
      constructor
      · intro hcsv w hw
        simp only [batchGo] at hw
        exact hcsv w hw
      · intro _ _
        simp only [batchGo]
    | frame dets ok =>
      constructor
      · intro hcsv w hw
        simp only [batchGo] at hw
        refine (ih _ _ _ _ _).1 ?_ w hw
        intro w2 hw2
        by_cases hc : (fi + 1) % CSV_EVERY_N_FRAMES = 0 ∧
            (processDets fps (fi + 1) st dets).1.rows ≠ []
        · rw [if_pos hc] at hw2
          rcases List.mem_append.mp hw2 with h1 | h1
          · exact hcsv w2 h1
          · rw [List.mem_singleton.mp h1]; exact hc.2
        · rw [if_neg hc] at hw2
          exact hcsv w2 hw2
      · intro hall hrows
        have hdets : processDets fps (fi + 1) st dets = (st, []) :=
          processDets_noId fps (fi + 1) dets st (hall (FrameIn.frame dets ok) (by simp))
        simp only [batchGo, hdets, hrows]
        rw [if_neg (by simp :
          ¬((fi + 1) % CSV_EVERY_N_FRAMES = 0 ∧ ([] : List Row) ≠ []))]
        exact (ih _ _ _ _ _).2
          (fun f2 hf2 => hall f2 (List.mem_cons_of_mem _ hf2)) hrows

/-- Claim C10: both the periodic flush and the final flush write the log
destination only when at least one log row has accumulated — every written
payload is nonempty — and a session (streaming or batch) that processes its
whole input with zero id-bearing detections performs no CSV write at all,
leaving the log destination untouched. -/
theorem claim10_flush_only_with_rows (fps : ℚ) (inputs : List FrameIn) :
    (∀ w ∈ (appRun fps inputs).csvWrites, w ≠ []) ∧
    (∀ w ∈ (batchRun fps inputs).csvWrites, w ≠ []) ∧
    ((∀ f ∈ inputs, ∀ d ∈ frameDets f, d.id.getD (-1) = -1) →
      (appRun fps inputs).csvWrites = [] ∧ (batchRun fps inputs).csvWrites = []) :=
  ⟨(appGo_csv_writes fps inputs ⟨[], []⟩ 0 [] [] []).1 (by simp),
   (batchGo_csv_writes fps inputs ⟨[], []⟩ 0 [] [] []).1 (by simp),
   fun hall =>
    ⟨(appGo_csv_writes fps inputs ⟨[], []⟩ 0 [] [] []).2 hall rfl,
     (batchGo_csv_writes fps inputs ⟨[], []⟩ 0 [] [] []).2 hall rfl⟩⟩

/-- A concrete instance of claim C10: a two-frame session whose only
detection lacks a track id writes no CSV, in either mode. -/
theorem claim10_witness :
    (appRun 30 [FrameIn.frame [wnodet] true, FrameIn.frame [] true]).csvWrites = [] ∧
    (batchRun 30 [FrameIn.frame [wnodet] true, FrameIn.frame [] true]).csvWrites = [] :=
  (claim10_flush_only_with_rows 30
    [FrameIn.frame [wnodet] true, FrameIn.frame [] true]).2.2 (by decide)

/-! ## Chunk accumulation in the streaming session -/

/-- The chunk accumulator of `appGo` is pure output: it is only appended to,
and no other component of the result depends on it. -/
theorem appGo_chunk_shift (fps : ℚ) :
    ∀ (ins : List FrameIn) (st : StepState) (fi : ℕ) (csv : List (List Row))
      (chs : List ℕ) (ds : List DrawCall),
      (appGo fps st fi csv chs ds ins).state = (appGo fps st fi csv [] ds ins).state ∧
      (appGo fps st fi csv chs ds ins).frames = (appGo fps st fi csv [] ds ins).frames ∧
      (appGo fps st fi csv chs ds ins).errored = (appGo fps st fi csv [] ds ins).errored ∧
      (appGo fps st fi csv chs ds ins).csvWrites = (appGo fps st fi csv [] ds ins).csvWrites ∧
      (appGo fps st fi csv chs ds ins).draws = (appGo fps st fi csv [] ds ins).draws ∧
      (appGo fps st fi csv chs ds ins).chunks = chs ++ (appGo fps st fi csv [] ds ins).chunks := by
  intro ins
  induction ins with
  | nil =>
    intro st fi csv chs ds
    simp [appGo]
  | cons f rest ih =>
    cases f with
    | raise =>
      intro st fi csv chs ds
      simp [appGo]
    | frame dets ok =>
      intro st fi csv chs ds
      simp only [appGo]
      obtain ⟨l1, l2, l3, l4, l5, l6⟩ := ih (processDets fps (fi + 1) st dets).1 (fi + 1)
        (if (fi + 1) % CSV_EVERY_N_FRAMES = 0 ∧ (processDets fps (fi + 1) st dets).1.rows ≠ []
          then csv ++ [(processDets fps (fi + 1) st dets).1.rows] else csv)
        (if ok then chs ++ [fi + 1] else chs)
        (ds ++ (processDets fps (fi + 1) st dets).2)
      obtain ⟨r1, r2, r3, r4, r5, r6⟩ := ih (processDets fps (fi + 1) st dets).1 (fi + 1)
        (if (fi + 1) % CSV_EVERY_N_FRAMES = 0 ∧ (processDets fps (fi + 1) st dets).1.rows ≠ []
          then csv ++ [(processDets fps (fi + 1) st dets).1.rows] else csv)
        (if ok then ([] : List ℕ) ++ [fi + 1] else [])
        (ds ++ (processDets fps (fi + 1) st dets).2)
      refine ⟨by rw [l1, r1], by rw [l2, r2], by rw [l3, r3], by rw [l4, r4],
        by rw [l5, r5], ?_⟩
      rw [l6, r6]
      cases ok <;> simp

/-- Every chunk the streaming session emits after frame counter `fi` carries
a frame index strictly greater than `fi`. -/
theorem appGo_chunk_lt (fps : ℚ) :
    ∀ (ins : List FrameIn) (st : StepState) (fi : ℕ) (csv : List (List Row))
      (ds : List DrawCall) (c : ℕ),
      c ∈ (appGo fps st fi csv [] ds ins).chunks → fi < c := by
  intro ins
  induction ins with
  | nil =>
    intro st fi csv ds c hc
    simp [appGo] at hc
  | cons f rest ih =>
    cases f with
    | raise =>
      intro st fi csv ds c hc
      simp [appGo] at hc
    | frame dets ok =>
      intro st fi csv ds c hc
      simp only [appGo] at hc
      rw [(appGo_chunk_shift fps rest _ _ _ _ _).2.2.2.2.2] at hc
      rcases List.mem_append.mp hc with h1 | h1
      · cases ok with
        | false => simp at h1
        | true =>
          have : c = fi + 1 := by simpa using h1
          omega
      · have := ih _ (fi + 1) _ _ c h1
        omega

theorem appGo_cons_frame_true (fps : ℚ) (st : StepState) (fi : ℕ)
    (csv : List (List Row)) (chs : List ℕ) (ds : List DrawCall)
    (dets : List RawDet) (rest : List FrameIn) :
    appGo fps st fi csv chs ds (FrameIn.frame dets true :: rest) =
      appGo fps (processDets fps (fi + 1) st dets).1 (fi + 1)
        (if (fi + 1) % CSV_EVERY_N_FRAMES = 0 ∧ (processDets fps (fi + 1) st dets).1.rows ≠ []
          then csv ++ [(processDets fps (fi + 1) st dets).1.rows] else csv)
        (chs ++ [fi + 1])
        (ds ++ (processDets fps (fi + 1) st dets).2) rest := by
  simp [appGo]

theorem appGo_cons_frame_false (fps : ℚ) (st : StepState) (fi : ℕ)
    (csv : List (List Row)) (chs : List ℕ) (ds : List DrawCall)
    (dets : List RawDet) (rest : List FrameIn) :
    appGo fps st fi csv chs ds (FrameIn.frame dets false :: rest) =
      appGo fps (processDets fps (fi + 1) st dets).1 (fi + 1)
        (if (fi + 1) % CSV_EVERY_N_FRAMES = 0 ∧ (processDets fps (fi + 1) st dets).1.rows ≠ []
          then csv ++ [(processDets fps (fi + 1) st dets).1.rows] else csv)
        chs
        (ds ++ (processDets fps (fi + 1) st dets).2) rest := by
  simp [appGo]

/-- Flipping the JPEG-encode outcome of one frame from success to failure
changes nothing in the streaming session but the chunk sequence, from which
exactly that frame is missing. -/
theorem appGo_encode_flip (fps : ℚ) :
    ∀ (k : ℕ) (ins : List FrameIn) (dets : List RawDet) (st : StepState) (fi : ℕ)
      (csv : List (List Row)) (chs : List ℕ) (ds : List DrawCall),
      ins.get? k = some (FrameIn.frame dets true) →
      (∀ f ∈ ins.take k, f ≠ FrameIn.raise) →
      (∀ c ∈ chs, c ≤ fi) →
      (appGo fps st fi csv chs ds (ins.set k (FrameIn.frame dets false))).state
          = (appGo fps st fi csv chs ds ins).state ∧
      (appGo fps st fi csv chs ds (ins.set k (FrameIn.frame dets false))).frames
          = (appGo fps st fi csv chs ds ins).frames ∧
      (appGo fps st fi csv chs ds (ins.set k (FrameIn.frame dets false))).errored
          = (appGo fps st fi csv chs ds ins).errored ∧
      (appGo fps st fi csv chs ds (ins.set k (FrameIn.frame dets false))).csvWrites
          = (appGo fps st fi csv chs ds ins).csvWrites ∧
      (appGo fps st fi csv chs ds (ins.set k (FrameIn.frame dets false))).draws
          = (appGo fps st fi csv chs ds ins).draws ∧
      ∃ A B, (appGo fps st fi csv chs ds ins).chunks = A ++ (fi + k + 1) :: B ∧
        (appGo fps st fi csv chs ds (ins.set k (FrameIn.frame dets false))).chunks = A ++ B ∧
        (∀ a ∈ A, a ≤ fi + k) ∧ (∀ b ∈ B, fi + k + 1 < b) := by
  intro k
  induction k with
  | zero =>
    intro ins dets st fi csv chs ds hk _ hchs
    cases ins with
    | nil => simp at hk
    | cons f rest =>
      have hf : f = FrameIn.frame dets true := by
        simpa using hk
      subst hf
      have hset : (FrameIn.frame dets true :: rest).set 0 (FrameIn.frame dets false)
          = FrameIn.frame dets false :: rest := rfl
      rw [hset, appGo_cons_frame_false, appGo_cons_frame_true]
      have hshift := appGo_chunk_shift fps rest (processDets fps (fi + 1) st dets).1 (fi + 1)
        (if (fi + 1) % CSV_EVERY_N_FRAMES = 0 ∧ (processDets fps (fi + 1) st dets).1.rows ≠ []
          then csv ++ [(processDets fps (fi + 1) st dets).1.rows] else csv)
        (chs ++ [fi + 1])
        (ds ++ (processDets fps (fi + 1) st dets).2)
      have hshift2 := appGo_chunk_shift fps rest (processDets fps (fi + 1) st dets).1 (fi + 1)
        (if (fi + 1) % CSV_EVERY_N_FRAMES = 0 ∧ (processDets fps (fi + 1) st dets).1.rows ≠ []
          then csv ++ [(processDets fps (fi + 1) st dets).1.rows] else csv)
        chs
        (ds ++ (processDets fps (fi + 1) st dets).2)
      refine ⟨by rw [hshift.1, hshift2.1], by rw [hshift.2.1, hshift2.2.1],
        by rw [hshift.2.2.1, hshift2.2.2.1], by rw [hshift.2.2.2.1, hshift2.2.2.2.1],
        by rw [hshift.2.2.2.2.1, hshift2.2.2.2.2.1], ?_⟩
      refine ⟨chs, (appGo fps (processDets fps (fi + 1) st dets).1 (fi + 1)
        (if (fi + 1) % CSV_EVERY_N_FRAMES = 0 ∧ (processDets fps (fi + 1) st dets).1.rows ≠ []
          then csv ++ [(processDets fps (fi + 1) st dets).1.rows] else csv)
        [] (ds ++ (processDets fps (fi + 1) st dets).2) rest).chunks, ?_, ?_, ?_, ?_⟩
      · rw [hshift.2.2.2.2.2]
        simp
      · rw [hshift2.2.2.2.2.2]
      · intro a ha
        have := hchs a ha
        omega
      · intro b hb
        exact appGo_chunk_lt fps rest _ _ _ _ b hb
  | succ k2 ih =>
    intro ins dets st fi csv chs ds hk hnr hchs
    cases ins with
    | nil => simp at hk
    | cons f rest =>
      have hk2 : rest.get? k2 = some (FrameIn.frame dets true) := by simpa using hk
      have hnr2 : ∀ f2 ∈ rest.take k2, f2 ≠ FrameIn.raise := by
        intro f2 hf2
        exact hnr f2 (by simp [List.take, hf2] )
      cases f with
      | raise => exact absurd rfl (hnr FrameIn.raise (by simp [List.take]))
      | frame d2 e2 =>
        simp only [List.set]
        simp only [appGo]
        have hacc : ∀ c ∈ (if e2 then chs ++ [fi + 1] else chs), c ≤ fi + 1 := by
          intro c hc
          cases e2 with
          | true =>
            simp at hc
            rcases hc with h1 | h1
            · have := hchs c h1; omega
            · omega
          | false =>
            simp at hc
            have := hchs c hc; omega
        have hmain := ih rest dets (processDets fps (fi + 1) st d2).1 (fi + 1)
          (if (fi + 1) % CSV_EVERY_N_FRAMES = 0 ∧ (processDets fps (fi + 1) st d2).1.rows ≠ []
            then csv ++ [(processDets fps (fi + 1) st d2).1.rows] else csv)
          (if e2 then chs ++ [fi + 1] else chs)
          (ds ++ (processDets fps (fi + 1) st d2).2) hk2 hnr2 hacc
        obtain ⟨m1, m2, m3, m4, m5, A, B, mA, mB, mAle, mBgt⟩ := hmain
        refine ⟨m1, m2, m3, m4, m5, A, B, ?_, mB, ?_, ?_⟩
        · rw [mA]
          congr 2
          omega
        · intro a ha
          have := mAle a ha
          omega
        · intro b hb
          have := mBgt b hb
          omega

/-! ## Claim C8 -/

/-- Claim C8: in streaming mode, if compressing one frame for transport
fails, that single frame is absent from the emitted chunk sequence, every
other frame is emitted or not exactly as before, and the session continues
unchanged otherwise: same final state (hence the log still contains all rows
produced for that frame), same CSV writes, same annotator calls, same
termination status. -/
theorem claim8_encode_failure_skips_frame (fps : ℚ) (inputs : List FrameIn)
    (k : ℕ) (dets : List RawDet)
    (hk : inputs.get? k = some (FrameIn.frame dets true))
    (hnr : ∀ f ∈ inputs.take k, f ≠ FrameIn.raise) :
    (appRun fps (inputs.set k (FrameIn.frame dets false))).state
        = (appRun fps inputs).state ∧
    (appRun fps (inputs.set k (FrameIn.frame dets false))).csvWrites
        = (appRun fps inputs).csvWrites ∧
    (appRun fps (inputs.set k (FrameIn.frame dets false))).draws
        = (appRun fps inputs).draws ∧
    (appRun fps (inputs.set k (FrameIn.frame dets false))).errored
        = (appRun fps inputs).errored ∧
    (k + 1) ∉ (appRun fps (inputs.set k (FrameIn.frame dets false))).chunks ∧
    (∀ j, j ≠ k + 1 →
      (j ∈ (appRun fps (inputs.set k (FrameIn.frame dets false))).chunks ↔
        j ∈ (appRun fps inputs).chunks)) := by
  obtain ⟨m1, m2, m3, m4, m5, A, B, mA, mB, mAle, mBgt⟩ :=
    appGo_encode_flip fps k inputs dets ⟨[], []⟩ 0 [] [] [] hk hnr (by simp)
  have hAk : ∀ a ∈ A, a ≤ k := by
    intro a ha
    have := mAle a ha
    omega
  have hBk : ∀ b ∈ B, k + 1 < b := by
    intro b hb
    have := mBgt b hb
    omega
  have hkA : (0 : ℕ) + k + 1 = k + 1 := by omega
  rw [hkA] at mA
  refine ⟨m1, m4, m5, m3, ?_, ?_⟩
  · rw [appRun, mB]
    intro hmem
    rcases List.mem_append.mp hmem with h1 | h1
    · have := hAk _ h1; omega
    · have := hBk _ h1; omega
  · intro j hj
    rw [appRun, appRun, mA, mB]
    simp only [List.mem_append, List.mem_cons]
    constructor
    · intro h1
      rcases h1 with h1 | h1
      · exact Or.inl h1
      · exact Or.inr (Or.inr h1)
    · intro h1
      rcases h1 with h1 | h1 | h1
      · exact Or.inl h1
      · exact absurd h1 hj
      · exact Or.inr h1

/-- A concrete instance of claim C8: a one-frame session whose only frame
fails to encode keeps the same final state but emits no chunk for frame 1. -/
theorem claim8_witness :
    (appRun 30 ([FrameIn.frame [wdet] true].set 0 (FrameIn.frame [wdet] false))).state
        = (appRun 30 [FrameIn.frame [wdet] true]).state ∧
    (appRun 30 ([FrameIn.frame [wdet] true].set 0 (FrameIn.frame [wdet] false))).csvWrites
        = (appRun 30 [FrameIn.frame [wdet] true]).csvWrites ∧
    (1 : ℕ) ∉ (appRun 30 ([FrameIn.frame [wdet] true].set 0 (FrameIn.frame [wdet] false))).chunks := by
  obtain ⟨h1, h2, _, _, h5, _⟩ :=
    claim8_encode_failure_skips_frame 30 [FrameIn.frame [wdet] true] 0 [wdet] rfl
      (by simp [List.take])
  exact ⟨h1, h2, h5⟩

/-! ## Projection of a session onto one track id -/

/-- The log rows carrying a given track id. -/
def rowsFor (t : ℤ) (rows : List Row) : List Row :=
  rows.filter (fun r => decide (r.track_id = t))

/-- The detections of one frame whose extracted track id equals `t`. -/
def trackFilter (t : ℤ) (dets : List RawDet) : List RawDet :=
  dets.filter (fun d => decide (d.id.getD (-1) = t))

/-- The per-detection body of the frame loop, restricted to the state it
touches for one track id: the buffer entry for that id and the rows carrying
that id. -/
def trackStep (fps : ℚ) (frame_idx : ℕ) (acc : Option Box × List Row) (det : RawDet) :
    Option Box × List Row :=
  let track_id := det.id.getD (-1)
  if track_id = -1 then acc
  else
    let sm := smoothStep acc.1 det.xyxy
    (some sm, acc.2 ++ [rowOf fps frame_idx track_id det sm])

/-- The whole-session evolution of one track id: fold the per-detection body
over that track id's detections, frame by frame, stopping where the session
stops. -/
def trackRun (fps : ℚ) (t : ℤ) : Option Box × List Row → ℕ → List FrameIn → Option Box × List Row
  | acc, _, [] => acc
  | acc, _, FrameIn.raise :: _ => acc
  | acc, fi, FrameIn.frame dets _ :: rest =>
    trackRun fps t (List.foldl (trackStep fps (fi + 1)) acc (trackFilter t dets)) (fi + 1) rest

theorem processDetection_active {det : RawDet} (h : det.id.getD (-1) ≠ -1)
    (fps : ℚ) (fi : ℕ) (st : StepState) :
    processDetection fps fi st det =
      (⟨insertTrack st.buffer (det.id.getD (-1))
          (smoothStep (lookupTrack st.buffer (det.id.getD (-1))) det.xyxy),
        st.rows ++ [rowOf fps fi (det.id.getD (-1)) det
          (smoothStep (lookupTrack st.buffer (det.id.getD (-1))) det.xyxy)]⟩,
       [⟨smoothStep (lookupTrack st.buffer (det.id.getD (-1))) det.xyxy,
         safe_class_name (det.cls.getD 0) ++ " ID:" ++ toString (det.id.getD (-1)),
         box_color_for (safe_class_name (det.cls.getD 0))⟩]) := by
  simp [processDetection, h]

theorem rowsFor_append_one (t : ℤ) (rows : List Row) (row : Row) :
    rowsFor t (rows ++ [row])
      = rowsFor t rows ++ (if row.track_id = t then [row] else []) := by
  by_cases h : row.track_id = t <;>
    simp [rowsFor, List.filter_append, h]

theorem track_id_rowOf (fps : ℚ) (fi : ℕ) (tid : ℤ) (det : RawDet) (sm : Box) :
    (rowOf fps fi tid det sm).track_id = tid := rfl

/-- Processing the detections of one frame acts on the buffer entry and the
log rows of a given track id exactly as the one-track fold over that track
id's detections. -/
theorem processDets_track (fps : ℚ) (fi : ℕ) (t : ℤ) :
    ∀ (dets : List RawDet) (st : StepState),
      (lookupTrack (processDets fps fi st dets).1.buffer t,
       rowsFor t (processDets fps fi st dets).1.rows)
      = List.foldl (trackStep fps fi) (lookupTrack st.buffer t, rowsFor t st.rows)
          (trackFilter t dets) := by
  intro dets
  induction dets with
  | nil => intro st; rfl
  | cons d ds ih =>
    intro st
    by_cases hskip : d.id.getD (-1) = -1
    · have h1 := processDetection_skip hskip fps fi st
      by_cases ht : d.id.getD (-1) = t
      · simp only [processDets, h1, trackFilter, List.filter_cons]
        rw [if_pos (by simp [ht])]
        rw [List.foldl_cons]
        rw [show trackStep fps fi (lookupTrack st.buffer t, rowsFor t st.rows) d
            = (lookupTrack st.buffer t, rowsFor t st.rows) by simp [trackStep, hskip]]
        exact ih st
      · simp only [processDets, h1, trackFilter, List.filter_cons]
        rw [if_neg (by simp [ht])]
        exact ih st
    · have h1 := processDetection_active hskip fps fi st
      by_cases ht : d.id.getD (-1) = t
      · simp only [processDets, h1, trackFilter, List.filter_cons]
        rw [if_pos (by simp [ht])]
        rw [List.foldl_cons]
        have hstep : trackStep fps fi (lookupTrack st.buffer t, rowsFor t st.rows) d
            = (some (smoothStep (lookupTrack st.buffer t) d.xyxy),
               rowsFor t st.rows ++ [rowOf fps fi (d.id.getD (-1)) d
                 (smoothStep (lookupTrack st.buffer t) d.xyxy)]) := by
          simp [trackStep, hskip]
        rw [hstep]
        rw [ih (⟨insertTrack st.buffer (d.id.getD (-1))
            (smoothStep (lookupTrack st.buffer (d.id.getD (-1))) d.xyxy),
          st.rows ++ [rowOf fps fi (d.id.getD (-1)) d
            (smoothStep (lookupTrack st.buffer (d.id.getD (-1))) d.xyxy)]⟩ : StepState)]
        rw [ht]
        simp [lookupTrack_insert_self, rowsFor_append_one, track_id_rowOf, trackFilter]
      · simp only [processDets, h1, trackFilter, List.filter_cons]
        rw [if_neg (by simp [ht])]
        rw [ih (⟨insertTrack st.buffer (d.id.getD (-1))
            (smoothStep (lookupTrack st.buffer (d.id.getD (-1))) d.xyxy),
          st.rows ++ [rowOf fps fi (d.id.getD (-1)) d
            (smoothStep (lookupTrack st.buffer (d.id.getD (-1))) d.xyxy)]⟩ : StepState)]
        have hacc : ((lookupTrack (insertTrack st.buffer (d.id.getD (-1))
              (smoothStep (lookupTrack st.buffer (d.id.getD (-1))) d.xyxy)) t),
            rowsFor t (st.rows ++ [rowOf fps fi (d.id.getD (-1)) d
              (smoothStep (lookupTrack st.buffer (d.id.getD (-1))) d.xyxy)]))
            = (lookupTrack st.buffer t, rowsFor t st.rows) := by
          rw [lookupTrack_insert_other st.buffer _ (fun hh => ht hh.symm)]
          rw [rowsFor_append_one]
          simp [track_id_rowOf, ht]
        dsimp only
        rw [hacc]
        rfl

/-- Over a whole streaming session, the buffer entry and the rows of a given
track id are the one-track fold over that track id's detections, frame by
frame. -/
theorem appGo_track (fps : ℚ) (t : ℤ) :
    ∀ (ins : List FrameIn) (st : StepState) (fi : ℕ) (csv : List (List Row))
      (chs : List ℕ) (ds : List DrawCall),
      (lookupTrack (appGo fps st fi csv chs ds ins).state.buffer t,
       rowsFor t (appGo fps st fi csv chs ds ins).state.rows)
      = trackRun fps t (lookupTrack st.buffer t, rowsFor t st.rows) fi ins := by
  intro ins
  induction ins with
  | nil => intro st fi csv chs ds; rfl
  | cons f rest ih =>
    cases f with
    | raise => intro st fi csv chs ds; rfl
    | frame dets ok =>
      intro st fi csv chs ds
      simp only [appGo, trackRun]
      rw [ih]
      rw [processDets_track]

/-- Two input scripts agree on one track id when they have the same length,
raise at the same positions, and report the same detections for that track
id on every frame (detections for other track ids, and the encode outcomes,
are free to differ). -/
def SameTrackView (t : ℤ) : FrameIn → FrameIn → Prop
  | FrameIn.frame d1 _, FrameIn.frame d2 _ => trackFilter t d1 = trackFilter t d2
  | FrameIn.raise, FrameIn.raise => True
  | _, _ => False

theorem trackRun_congr (fps : ℚ) (t : ℤ) :
    ∀ {ins1 ins2 : List FrameIn}, List.Forall₂ (SameTrackView t) ins1 ins2 →
      ∀ (acc : Option Box × List Row) (fi : ℕ),
        trackRun fps t acc fi ins1 = trackRun fps t acc fi ins2 := by
  intro ins1 ins2 h
  induction h with
  | nil => intro acc fi; rfl
  | @cons a b l1 l2 hab _ ih =>
    intro acc fi
    cases a with
    | raise =>
      cases b with
      | raise => rfl
      | frame d2 e2 => exact absurd hab (by simp [SameTrackView])
    | frame d1 e1 =>
      cases b with
      | raise => exact absurd hab (by simp [SameTrackView])
      | frame d2 e2 =>
        have hf : trackFilter t d1 = trackFilter t d2 := hab
        simp only [trackRun]
        rw [hf]
        exact ih _ _

/-! ## Claim C9 -/

/-- Claim C9: for a given track id, the smoothed boxes recorded for that
track (its buffer entry and its log rows, which carry the smoothed
coordinates frame by frame) are a deterministic function of only the raw
detections reported for that track id and the smoothing constant: two runs
whose inputs differ only in detections carrying other track ids produce
identical smoothed boxes for this track id. -/
theorem claim9_track_noninterference (fps : ℚ) (t : ℤ) (ins1 ins2 : List FrameIn)
    (h : List.Forall₂ (SameTrackView t) ins1 ins2) :
    lookupTrack (appRun fps ins1).state.buffer t
        = lookupTrack (appRun fps ins2).state.buffer t ∧
    rowsFor t (appRun fps ins1).state.rows = rowsFor t (appRun fps ins2).state.rows := by
  have h1 := appGo_track fps t ins1 ⟨[], []⟩ 0 [] [] []
  have h2 := appGo_track fps t ins2 ⟨[], []⟩ 0 [] [] []
  have h3 := trackRun_congr fps t h
    (lookupTrack ([] : List (ℤ × Box)) t, rowsFor t ([] : List Row)) 0
  have h4 : (lookupTrack (appRun fps ins1).state.buffer t,
      rowsFor t (appRun fps ins1).state.rows)
      = (lookupTrack (appRun fps ins2).state.buffer t,
        rowsFor t (appRun fps ins2).state.rows) := by
    rw [appRun, appRun, h1, h2]
    exact h3
  exact ⟨congrArg Prod.fst h4, congrArg Prod.snd h4⟩

/-- A concrete instance of claim C9: adding a detection for track id 2 to a
frame leaves the buffer entry and the log rows of track id 1 unchanged. -/
theorem claim9_witness :
    lookupTrack (appRun 30 [FrameIn.frame [wdet, wodet] true]).state.buffer 1
      = lookupTrack (appRun 30 [FrameIn.frame [wdet] true]).state.buffer 1 ∧
    rowsFor 1 (appRun 30 [FrameIn.frame [wdet, wodet] true]).state.rows
      = rowsFor 1 (appRun 30 [FrameIn.frame [wdet] true]).state.rows :=
  claim9_track_noninterference 30 1 _ _
    (List.Forall₂.cons (show trackFilter 1 [wdet, wodet] = trackFilter 1 [wdet] from rfl)
      List.Forall₂.nil)


/-! ## Faithful IEEE binary64 embedding of the smoothing arithmetic -/

/-- Round a rational to the nearest integer, ties to the even integer: the
tie-breaking rule of IEEE round-to-nearest-even, expressed on an integer
grid. -/
def rhe (q : ℚ) : ℤ :=
  if q - ⌊q⌋ < 1 / 2 then ⌊q⌋
  else if 1 / 2 < q - ⌊q⌋ then ⌊q⌋ + 1
  else if ⌊q⌋ % 2 = 0 then ⌊q⌋ else ⌊q⌋ + 1

/-- Round a rational to the nearest IEEE binary64 value: 53 significant bits,
round to nearest, ties to even.  Exponent range limits (overflow and
subnormals) are not modelled; they are unreachable at the magnitudes the
smoothing arithmetic computes. -/
def float64 (q : ℚ) : ℚ :=
  if q = 0 then 0
  else if q < 0 then
    -((rhe (-q / 2 ^ (Int.log 2 (-q) - 52)) : ℚ) * 2 ^ (Int.log 2 (-q) - 52))
  else (rhe (q / 2 ^ (Int.log 2 q - 52)) : ℚ) * 2 ^ (Int.log 2 q - 52)

/-- The IEEE binary64 evaluation of `alpha * new + (1 - alpha) * old` exactly
as the Python line computes it: the literal `0.30` is the nearest double to
3/10, `1 - alpha` is one double subtraction, the integer operands convert to
doubles, and each multiplication and the final addition round once. -/
def doubleEval (old new : ℤ) : ℚ :=
  let alpha := float64 (3 / 10)
  float64 (float64 (alpha * float64 (new : ℚ))
    + float64 (float64 (1 - alpha) * float64 (old : ℚ)))

/-- The faithful binary64 embedding of the helper
`smooth(old, new) = int(alpha * new + (1 - alpha) * old)` (app.py line 57,
beluga_track_server.py line 37): the double evaluation of the formula,
truncated toward zero. -/
def smoothFloat (old new : ℤ) : ℤ := ratTrunc (doubleEval old new)

theorem rhe_eq_floor {q : ℚ} {f : ℤ} (hf : ⌊q⌋ = f) (h : q - f < 1 / 2) :
    rhe q = f := by
  rw [rhe, hf, if_pos h]

theorem rhe_eq_ceil {q : ℚ} {f : ℤ} (hf : ⌊q⌋ = f) (h : 1 / 2 < q - f) :
    rhe q = f + 1 := by
  rw [rhe, hf, if_neg (by linarith), if_pos h]

theorem rhe_tie_even {q : ℚ} {f : ℤ} (hf : ⌊q⌋ = f) (h : q - f = 1 / 2)
    (he : f % 2 = 0) : rhe q = f := by
  rw [rhe, hf, if_neg (by simp [h]), if_neg (by simp [h]), if_pos he]

theorem rhe_tie_odd {q : ℚ} {f : ℤ} (hf : ⌊q⌋ = f) (h : q - f = 1 / 2)
    (ho : ¬f % 2 = 0) : rhe q = f + 1 := by
  rw [rhe, hf, if_neg (by simp [h]), if_neg (by simp [h]), if_neg ho]

theorem rhe_intCast (m : ℤ) : rhe (m : ℚ) = m :=
  rhe_eq_floor (Int.floor_intCast m) (by norm_num)

theorem float64_zero : float64 0 = 0 := by
  simp [float64]

theorem float64_pos_eval {q : ℚ} {e m : ℤ} (h0 : 0 < q)
    (h1 : (2 : ℚ) ^ e ≤ q) (h2 : q < (2 : ℚ) ^ (e + 1))
    (hm : rhe (q / 2 ^ (e - 52)) = m) :
    float64 q = (m : ℚ) * 2 ^ (e - 52) := by
  have hb : ((2 : ℕ) : ℚ) = (2 : ℚ) := by norm_num
  have hlog : Int.log 2 q = e := by
    have ha := (Int.zpow_le_iff_le_log (b := 2) (by norm_num) h0).mp (by rw [hb]; exact h1)
    have hc := (Int.lt_zpow_iff_log_lt (b := 2) (by norm_num) h0).mp (by rw [hb]; exact h2)
    omega
  rw [float64, if_neg h0.ne', if_neg (not_lt.mpr h0.le), hlog, hm]

/-- A positive value already on the 53-bit grid of its binade rounds to
itself. -/
theorem float64_grid {q : ℚ} {e m : ℤ} (h0 : 0 < q)
    (h1 : (2 : ℚ) ^ e ≤ q) (h2 : q < (2 : ℚ) ^ (e + 1))
    (hm : q = (m : ℚ) * 2 ^ (e - 52)) : float64 q = q := by
  have hq : q / 2 ^ (e - 52) = (m : ℚ) := by
    rw [hm]
    exact mul_div_cancel_right₀ _ (zpow_ne_zero _ two_ne_zero)
  have hr : rhe (q / 2 ^ (e - 52)) = m := by
    rw [hq]
    exact rhe_intCast m
  rw [float64_pos_eval h0 h1 h2 hr, ← hm]

theorem float64_alpha : float64 (3 / 10) = 5404319552844595 / 2 ^ 54 := by
  have h := float64_pos_eval (q := 3 / 10) (e := -2) (m := 5404319552844595)
    (by norm_num) (by norm_num) (by norm_num)
    (by
      have harg : (3 / 10 : ℚ) / 2 ^ ((-2 : ℤ) - 52) = 54043195528445952 / 10 := by
        norm_num
      rw [harg]
      exact rhe_eq_floor (by rw [Int.floor_eq_iff]; norm_num) (by norm_num))
  rw [h]
  norm_num

theorem float64_beta :
    float64 (12610078956637389 / 2 ^ 54) = 6305039478318694 / 2 ^ 53 := by
  have h := float64_pos_eval (q := 12610078956637389 / 2 ^ 54) (e := -1)
    (m := 6305039478318694)
    (by norm_num) (by norm_num) (by norm_num)
    (by
      have harg : (12610078956637389 / 2 ^ 54 : ℚ) / 2 ^ ((-1 : ℤ) - 52)
          = 12610078956637389 / 2 := by norm_num
      rw [harg]
      exact rhe_tie_even (by rw [Int.floor_eq_iff]; norm_num) (by norm_num)
        (by norm_num))
  rw [h]
  norm_num

theorem float64_three : float64 ((3 : ℤ) : ℚ) = 3 := by
  have h := float64_grid (q := ((3 : ℤ) : ℚ)) (e := 1) (m := 6755399441055744)
    (by norm_num) (by norm_num) (by norm_num) (by norm_num)
  exact_mod_cast h

theorem float64_ten : float64 ((10 : ℤ) : ℚ) = 10 := by
  have h := float64_grid (q := ((10 : ℤ) : ℚ)) (e := 3) (m := 5629499534213120)
    (by norm_num) (by norm_num) (by norm_num) (by norm_num)
  exact_mod_cast h

theorem float64_hundred : float64 ((100 : ℤ) : ℚ) = 100 := by
  have h := float64_grid (q := ((100 : ℤ) : ℚ)) (e := 6) (m := 7036874417766400)
    (by norm_num) (by norm_num) (by norm_num) (by norm_num)
  exact_mod_cast h

theorem float64_twohundred : float64 ((200 : ℤ) : ℚ) = 200 := by
  have h := float64_grid (q := ((200 : ℤ) : ℚ)) (e := 7) (m := 7036874417766400)
    (by norm_num) (by norm_num) (by norm_num) (by norm_num)
  exact_mod_cast h

theorem float64_onethirty : float64 (130 : ℚ) = 130 := by
  have h := float64_grid (q := (130 : ℚ)) (e := 7) (m := 4573968371548160)
    (by norm_num) (by norm_num) (by norm_num) (by norm_num)
  exact_mod_cast h

theorem float64_prodA3 :
    float64 (16212958658533785 / 2 ^ 54) = 8106479329266892 / 2 ^ 53 := by
  have h := float64_pos_eval (q := 16212958658533785 / 2 ^ 54) (e := -1)
    (m := 8106479329266892)
    (by norm_num) (by norm_num) (by norm_num)
    (by
      have harg : (16212958658533785 / 2 ^ 54 : ℚ) / 2 ^ ((-1 : ℤ) - 52)
          = 16212958658533785 / 2 := by norm_num
      rw [harg]
      exact rhe_tie_even (by rw [Int.floor_eq_iff]; norm_num) (by norm_num)
        (by norm_num))
  rw [h]
  norm_num

theorem float64_prodB3 :
    float64 (18915118434956082 / 2 ^ 53) = 4728779608739020 / 2 ^ 51 := by
  have h := float64_pos_eval (q := 18915118434956082 / 2 ^ 53) (e := 1)
    (m := 4728779608739020)
    (by norm_num) (by norm_num) (by norm_num)
    (by
      have harg : (18915118434956082 / 2 ^ 53 : ℚ) / 2 ^ ((1 : ℤ) - 52)
          = 18915118434956082 / 4 := by norm_num
      rw [harg]
      exact rhe_tie_even (by rw [Int.floor_eq_iff]; norm_num) (by norm_num)
        (by norm_num))
  rw [h]
  norm_num

theorem float64_sum33 :
    float64 (6755399441055743 / 2 ^ 51) = 6755399441055743 / 2 ^ 51 :=
  float64_grid (e := 1) (m := 6755399441055743)
    (by norm_num) (by norm_num) (by norm_num) (by norm_num)

theorem float64_prodA10 : float64 (54043195528445950 / 2 ^ 54) = 3 := by
  have h := float64_pos_eval (q := 54043195528445950 / 2 ^ 54) (e := 1)
    (m := 6755399441055744)
    (by norm_num) (by norm_num) (by norm_num)
    (by
      have harg : (54043195528445950 / 2 ^ 54 : ℚ) / 2 ^ ((1 : ℤ) - 52)
          = 54043195528445950 / 8 := by norm_num
      rw [harg]
      exact rhe_eq_ceil (f := 6755399441055743)
        (by rw [Int.floor_eq_iff]; norm_num) (by norm_num))
  rw [h]
  norm_num

theorem float64_prodB10 : float64 (63050394783186940 / 2 ^ 53) = 7 := by
  have h := float64_pos_eval (q := 63050394783186940 / 2 ^ 53) (e := 2)
    (m := 7881299347898368)
    (by norm_num) (by norm_num) (by norm_num)
    (by
      have harg : (63050394783186940 / 2 ^ 53 : ℚ) / 2 ^ ((2 : ℤ) - 52)
          = 63050394783186940 / 8 := by norm_num
      rw [harg]
      exact rhe_tie_odd (f := 7881299347898367)
        (by rw [Int.floor_eq_iff]; norm_num) (by norm_num) (by norm_num))
  rw [h]
  norm_num

theorem float64_prodA200 : float64 (1080863910568919000 / 2 ^ 54) = 60 := by
  have h := float64_pos_eval (q := 1080863910568919000 / 2 ^ 54) (e := 5)
    (m := 8444249301319680)
    (by norm_num) (by norm_num) (by norm_num)
    (by
      have harg : (1080863910568919000 / 2 ^ 54 : ℚ) / 2 ^ ((5 : ℤ) - 52)
          = 1080863910568919000 / 128 := by norm_num
      rw [harg]
      exact rhe_eq_ceil (f := 8444249301319679)
        (by rw [Int.floor_eq_iff]; norm_num) (by norm_num))
  rw [h]
  norm_num

theorem float64_prodB100 : float64 (630503947831869400 / 2 ^ 53) = 70 := by
  have h := float64_pos_eval (q := 630503947831869400 / 2 ^ 53) (e := 6)
    (m := 4925812092436480)
    (by norm_num) (by norm_num) (by norm_num)
    (by
      have harg : (630503947831869400 / 2 ^ 53 : ℚ) / 2 ^ ((6 : ℤ) - 52)
          = 630503947831869400 / 128 := by norm_num
      rw [harg]
      exact rhe_eq_ceil (f := 4925812092436479)
        (by rw [Int.floor_eq_iff]; norm_num) (by norm_num))
  rw [h]
  norm_num

theorem doubleEval_3_3 : doubleEval 3 3 = 6755399441055743 / 2 ^ 51 := by
  simp only [doubleEval, float64_alpha, float64_three]
  have hb1 : (1 : ℚ) - 5404319552844595 / 2 ^ 54 = 12610078956637389 / 2 ^ 54 := by
    norm_num
  rw [hb1, float64_beta]
  have hp1 : (5404319552844595 / 2 ^ 54 : ℚ) * 3 = 16212958658533785 / 2 ^ 54 := by
    norm_num
  have hp2 : (6305039478318694 / 2 ^ 53 : ℚ) * 3 = 18915118434956082 / 2 ^ 53 := by
    norm_num
  rw [hp1, hp2, float64_prodA3, float64_prodB3]
  have hsum : (8106479329266892 / 2 ^ 53 : ℚ) + 4728779608739020 / 2 ^ 51
      = 6755399441055743 / 2 ^ 51 := by norm_num
  rw [hsum, float64_sum33]

theorem smoothFloat_3_3 : smoothFloat 3 3 = 2 := by
  show ratTrunc (doubleEval 3 3) = 2
  rw [doubleEval_3_3, ratTrunc_eq_floor (by norm_num), Int.floor_eq_iff]
  norm_num

theorem doubleEval_0_0 : doubleEval 0 0 = 0 := by
  simp [doubleEval, float64_zero]

theorem smoothFloat_0_0 : smoothFloat 0 0 = 0 := by
  show ratTrunc (doubleEval 0 0) = 0
  rw [doubleEval_0_0]
  simp [ratTrunc]

theorem doubleEval_10_10 : doubleEval 10 10 = 10 := by
  simp only [doubleEval, float64_alpha, float64_ten]
  have hb1 : (1 : ℚ) - 5404319552844595 / 2 ^ 54 = 12610078956637389 / 2 ^ 54 := by
    norm_num
  rw [hb1, float64_beta]
  have hp1 : (5404319552844595 / 2 ^ 54 : ℚ) * 10 = 54043195528445950 / 2 ^ 54 := by
    norm_num
  have hp2 : (6305039478318694 / 2 ^ 53 : ℚ) * 10 = 63050394783186940 / 2 ^ 53 := by
    norm_num
  rw [hp1, hp2, float64_prodA10, float64_prodB10]
  have hsum : (3 : ℚ) + 7 = ((10 : ℤ) : ℚ) := by norm_num
  rw [hsum, float64_ten]

theorem smoothFloat_10_10 : smoothFloat 10 10 = 10 := by
  show ratTrunc (doubleEval 10 10) = 10
  rw [doubleEval_10_10]
  have h10 : (10 : ℚ) = ((10 : ℤ) : ℚ) := by norm_num
  rw [h10, ratTrunc_intCast]

theorem doubleEval_100_200 : doubleEval 100 200 = 130 := by
  simp only [doubleEval, float64_alpha, float64_hundred, float64_twohundred]
  have hb1 : (1 : ℚ) - 5404319552844595 / 2 ^ 54 = 12610078956637389 / 2 ^ 54 := by
    norm_num
  rw [hb1, float64_beta]
  have hp1 : (5404319552844595 / 2 ^ 54 : ℚ) * 200 = 1080863910568919000 / 2 ^ 54 := by
    norm_num
  have hp2 : (6305039478318694 / 2 ^ 53 : ℚ) * 100 = 630503947831869400 / 2 ^ 53 := by
    norm_num
  rw [hp1, hp2, float64_prodA200, float64_prodB100]
  have hsum : (60 : ℚ) + 70 = (130 : ℚ) := by norm_num
  rw [hsum, float64_onethirty]

theorem smoothFloat_100_200 : smoothFloat 100 200 = 130 := by
  show ratTrunc (doubleEval 100 200) = 130
  rw [doubleEval_100_200]
  have h130 : (130 : ℚ) = ((130 : ℤ) : ℚ) := by norm_num
  rw [h130, ratTrunc_intCast]


/-! ## Smoothing trajectories under the binary64 arithmetic -/

/-- Coordinatewise binary64 smoothing of a box against the previous smoothed
box (app.py lines 149-153, under the faithful float model). -/
def smoothFloatBox (p r : Box) : Box :=
  { x1 := smoothFloat p.x1 r.x1
    y1 := smoothFloat p.y1 r.y1
    x2 := smoothFloat p.x2 r.x2
    y2 := smoothFloat p.y2 r.y2 }

/-- One smoothing-state transition under the float model: the raw box
verbatim on first sighting (no arithmetic involved), otherwise coordinatewise
binary64 smoothing. -/
def smoothFloatStep (prev : Option Box) (raw : Box) : Box :=
  match prev with
  | some p => smoothFloatBox p raw
  | none => raw

/-- The successive smoothed boxes stored for one track id under the float
model, from a given buffer entry. -/
def floatTrajFrom : Option Box → List Box → List Box
  | _, [] => []
  | prev, r :: rs =>
    let s := smoothFloatStep prev r
    s :: floatTrajFrom (some s) rs

/-- The successive smoothed boxes for one track id over its whole raw
sequence, under the float model. -/
def floatSmoothTraj (raws : List Box) : List Box := floatTrajFrom none raws

theorem floatSmoothTraj_head (raws : List Box) :
    (floatSmoothTraj raws).head? = raws.head? := by
  cases raws <;> simp [floatSmoothTraj, floatTrajFrom, smoothFloatStep]

theorem floatTrajFrom_get_succ :
    ∀ (raws : List Box) (prev : Option Box) (i : ℕ) (s r : Box),
      (floatTrajFrom prev raws).get? i = some s →
      raws.get? (i + 1) = some r →
      (floatTrajFrom prev raws).get? (i + 1) = some (smoothFloatBox s r) := by
  intro raws
  induction raws with
  | nil =>
    intro prev i s r h1 _
    simp [floatTrajFrom] at h1
  | cons x xs ih =>
    intro prev i s r h1 h2
    cases i with
    | zero =>
      simp only [floatTrajFrom, List.get?_cons_zero, Option.some.injEq] at h1
      cases xs with
      | nil => simp at h2
      | cons y ys =>
        simp only [List.get?_cons_succ, List.get?_cons_zero, Option.some.injEq] at h2
        subst h1
        subst h2
        simp [floatTrajFrom, smoothFloatStep]
    | succ j =>
      simp only [floatTrajFrom, List.get?_cons_succ] at h1 h2 ⊢
      exact ih (some (smoothFloatStep prev x)) j s r h1 h2

theorem floatTrajFrom_const {b : Box} (hb : smoothFloatBox b b = b) :
    ∀ n : ℕ, floatTrajFrom (some b) (List.replicate n b) = List.replicate n b := by
  intro n
  induction n with
  | zero => simp [floatTrajFrom]
  | succ k ih =>
    simp [List.replicate_succ, floatTrajFrom, smoothFloatStep, hb, ih]

/-! ## Claim C2 -/

/-- Counterexample to claim C2: in the binary64 arithmetic the program
actually performs, a constant stream of boxes with all coordinates 3 is not
a fixed point: `0.3*3 + 0.7*3` evaluates to `2.9999999999999996`, so
`int(...)` returns 2 and the second smoothed box is (2,2,2,2), not
(3,3,3,3). -/
theorem claim2_counterexample :
    floatSmoothTraj (List.replicate 2 (Box.mk 3 3 3 3))
        = [Box.mk 3 3 3 3, Box.mk 2 2 2 2] ∧
    floatSmoothTraj (List.replicate 2 (Box.mk 3 3 3 3))
        ≠ List.replicate 2 (Box.mk 3 3 3 3) := by
  have h1 : floatSmoothTraj (List.replicate 2 (Box.mk 3 3 3 3))
      = [Box.mk 3 3 3 3, Box.mk 2 2 2 2] := by
    simp [floatSmoothTraj, List.replicate, floatTrajFrom, smoothFloatStep,
      smoothFloatBox, smoothFloat_3_3]
  refine ⟨h1, ?_⟩
  rw [h1]
  decide

/-- Claim C2 as amended: applying the smoothing step to a constant stream of
identical raw boxes for one track id returns that same box unchanged on
every step after the first, for every box each of whose coordinates is a
fixed point of the binary64 smoothing arithmetic (under the exact-rational
reading of the formula every integer coordinate qualifies, but the doubles
the program computes with are not exact: coordinate 3 maps to 2). -/
theorem claim2_conditional_fixed_point (b : Box) (n : ℕ)
    (h1 : smoothFloat b.x1 b.x1 = b.x1) (h2 : smoothFloat b.y1 b.y1 = b.y1)
    (h3 : smoothFloat b.x2 b.x2 = b.x2) (h4 : smoothFloat b.y2 b.y2 = b.y2) :
    floatSmoothTraj (List.replicate n b) = List.replicate n b := by
  have hb : smoothFloatBox b b = b := by
    cases b
    simp only [smoothFloatBox] at *
    rw [h1, h2, h3, h4]
  cases n with
  | zero => simp [floatSmoothTraj, floatTrajFrom]
  | succ k =>
    simp [floatSmoothTraj, List.replicate_succ, floatTrajFrom, smoothFloatStep,
      floatTrajFrom_const hb]

/-- A concrete instance of the amended claim C2: the box (0, 0, 10, 10) has
float-fixed coordinates, so a constant stream of it stays unchanged. -/
theorem claim2_witness :
    floatSmoothTraj (List.replicate 3 (Box.mk 0 0 10 10))
        = List.replicate 3 (Box.mk 0 0 10 10) :=
  claim2_conditional_fixed_point (Box.mk 0 0 10 10) 3
    smoothFloat_0_0 smoothFloat_0_0 smoothFloat_10_10 smoothFloat_10_10

/-! ## Claim C5 -/

/-- Counterexample to claim C5: the program returns
`int(0.3*3 + (1-0.3)*3) = int(2.9999999999999996) = 2` at previous = 3,
incoming = 3, while round-toward-zero of the exact value
`0.30*3 + 0.70*3 = 3` is 3: the universal truncation contract fails in the
binary64 arithmetic the program performs. -/
theorem claim5_counterexample :
    smoothFloat 3 3 = 2 ∧ smooth_value 3 3 0.30 = 3 := by
  refine ⟨smoothFloat_3_3, ?_⟩
  have hv : (0.30 : ℚ) * ((3 : ℤ) : ℚ) + (1 - 0.30) * ((3 : ℤ) : ℚ) = ((3 : ℤ) : ℚ) := by
    norm_num
  simp only [smooth_value, hv]
  rw [if_pos (by norm_num), Int.floor_intCast]

/-- Claim C5 as amended: the smoothing function returns the IEEE binary64
evaluation of `alpha*incoming + (1-alpha)*previous` truncated toward zero;
whenever that double evaluation equals the exact value of the formula, the
result is `round(alpha*incoming + (1-alpha)*previous)` with round-toward-zero
as the contract states — and at alpha = 0.30, previous = 100, incoming = 200
the double evaluation is exact, so the result equals 130. -/
theorem claim5_float_contract :
    (∀ previous incoming : ℤ,
      doubleEval previous incoming
          = 0.30 * (incoming : ℚ) + (1 - 0.30) * (previous : ℚ) →
      smoothFloat previous incoming = smooth_value previous incoming 0.30) ∧
    doubleEval 100 200 = 0.30 * ((200 : ℤ) : ℚ) + (1 - 0.30) * ((100 : ℤ) : ℚ) ∧
    smoothFloat 100 200 = 130 := by
  refine ⟨?_, ?_, smoothFloat_100_200⟩
  · intro p n h
    show ratTrunc (doubleEval p n) = smooth_value p n 0.30
    rw [h]
    simp only [smooth_value]
    exact ratTrunc_char _
  · rw [doubleEval_100_200]
    norm_num

/-- A concrete instance of the amended claim C5: at previous = 100,
incoming = 200 the program result agrees with the round-toward-zero
contract. -/
theorem claim5_witness :
    smoothFloat 100 200 = smooth_value 100 200 0.30 :=
  (claim5_float_contract).1 100 200 (claim5_float_contract).2.1

/-! ## Claim C6 -/

/-- Counterexample to claim C6: with previous smoothed coordinate 3 and raw
coordinate 3 the program computes `int(2.9999999999999996) = 2`, which lies
outside the closed interval between the previous smoothed value and the raw
value (both 3): the smoother does overshoot in the binary64 arithmetic.  The
trajectory of the constant raw sequence (3,3,3,3), (3,3,3,3) exhibits
this at step two. -/
theorem claim6_counterexample :
    (floatSmoothTraj [Box.mk 3 3 3 3, Box.mk 3 3 3 3]).get? 0 = some (Box.mk 3 3 3 3) ∧
    ([Box.mk 3 3 3 3, Box.mk 3 3 3 3] : List Box).get? 1 = some (Box.mk 3 3 3 3) ∧
    (floatSmoothTraj [Box.mk 3 3 3 3, Box.mk 3 3 3 3]).get? 1 = some (Box.mk 2 2 2 2) ∧
    ¬BoxBetween (Box.mk 3 3 3 3) (Box.mk 3 3 3 3) (Box.mk 2 2 2 2) := by
  have h1 : floatSmoothTraj [Box.mk 3 3 3 3, Box.mk 3 3 3 3]
      = [Box.mk 3 3 3 3, Box.mk 2 2 2 2] := by
    simp [floatSmoothTraj, floatTrajFrom, smoothFloatStep, smoothFloatBox,
      smoothFloat_3_3]
  rw [h1]
  refine ⟨rfl, rfl, rfl, ?_⟩
  intro hB
  exact absurd hB.1.1 (by decide)

/-- Claim C6 as amended: for every sequence of raw boxes submitted for one
track id, the first smoothed box equals the first raw box exactly (cold
start — no arithmetic is involved), and on every later step each smoothed
coordinate is the truncated binary64 evaluation of the smoothing formula,
which lies in the closed interval between the previous smoothed coordinate
and the new raw coordinate whenever the double evaluation itself does
(under exact evaluation it always does; the program's doubles can land one
pixel outside, as previous = 3, raw = 3 yields 2). -/
theorem claim6_cold_start_conditional (raws : List Box) :
    (floatSmoothTraj raws).head? = raws.head? ∧
    ∀ (i : ℕ) (s r s2 : Box),
      (floatSmoothTraj raws).get? i = some s →
      raws.get? (i + 1) = some r →
      (floatSmoothTraj raws).get? (i + 1) = some s2 →
      s2 = smoothFloatBox s r ∧
      (((min s.x1 r.x1 : ℤ) : ℚ) ≤ doubleEval s.x1 r.x1 →
        doubleEval s.x1 r.x1 ≤ ((max s.x1 r.x1 : ℤ) : ℚ) →
        min s.x1 r.x1 ≤ s2.x1 ∧ s2.x1 ≤ max s.x1 r.x1) ∧
      (((min s.y1 r.y1 : ℤ) : ℚ) ≤ doubleEval s.y1 r.y1 →
        doubleEval s.y1 r.y1 ≤ ((max s.y1 r.y1 : ℤ) : ℚ) →
        min s.y1 r.y1 ≤ s2.y1 ∧ s2.y1 ≤ max s.y1 r.y1) ∧
      (((min s.x2 r.x2 : ℤ) : ℚ) ≤ doubleEval s.x2 r.x2 →
        doubleEval s.x2 r.x2 ≤ ((max s.x2 r.x2 : ℤ) : ℚ) →
        min s.x2 r.x2 ≤ s2.x2 ∧ s2.x2 ≤ max s.x2 r.x2) ∧
      (((min s.y2 r.y2 : ℤ) : ℚ) ≤ doubleEval s.y2 r.y2 →
        doubleEval s.y2 r.y2 ≤ ((max s.y2 r.y2 : ℤ) : ℚ) →
        min s.y2 r.y2 ≤ s2.y2 ∧ s2.y2 ≤ max s.y2 r.y2) := by
  refine ⟨floatSmoothTraj_head raws, ?_⟩
  intro i s r s2 h1 h2 h3
  have h4 := floatTrajFrom_get_succ raws none i s r h1 h2
  rw [floatSmoothTraj] at h3
  rw [h3] at h4
  injection h4 with h5
  refine ⟨h5, ?_, ?_, ?_, ?_⟩ <;>
    · intro hlo hhi
      rw [h5]
      exact ⟨le_ratTrunc_of_le hlo, ratTrunc_le_of_le hhi⟩

/-- A concrete instance of the amended claim C6 on the constant raw sequence
(0, 0, 10, 10), (0, 0, 10, 10), whose double evaluations are exact. -/
theorem claim6_witness :
    (floatSmoothTraj [Box.mk 0 0 10 10, Box.mk 0 0 10 10]).head?
        = ([Box.mk 0 0 10 10, Box.mk 0 0 10 10] : List Box).head? ∧
    (min ((Box.mk 0 0 10 10 : Box).x2) ((Box.mk 0 0 10 10 : Box).x2)
        ≤ (Box.mk 0 0 10 10 : Box).x2 ∧
      (Box.mk 0 0 10 10 : Box).x2
        ≤ max ((Box.mk 0 0 10 10 : Box).x2) ((Box.mk 0 0 10 10 : Box).x2)) := by
  have hb : smoothFloatBox (Box.mk 0 0 10 10) (Box.mk 0 0 10 10) = Box.mk 0 0 10 10 := by
    simp [smoothFloatBox, smoothFloat_0_0, smoothFloat_10_10]
  obtain ⟨hhead, hstep⟩ :=
    claim6_cold_start_conditional [Box.mk 0 0 10 10, Box.mk 0 0 10 10]
  obtain ⟨-, -, -, hx2, -⟩ := hstep 0 (Box.mk 0 0 10 10) (Box.mk 0 0 10 10)
    (Box.mk 0 0 10 10)
    (by simp [floatSmoothTraj, floatTrajFrom, smoothFloatStep])
    (by simp)
    (by simp [floatSmoothTraj, floatTrajFrom, smoothFloatStep, hb])
  exact ⟨hhead, hx2 (by rw [doubleEval_10_10]; norm_num)
    (by rw [doubleEval_10_10]; norm_num)⟩

end WhaleWatch
